import Mathlib

/-!
Logging backend of citra: entries, path trimming, the plain formatter and the POSIX coloured
renderer.

Shallow embedding of `src/common/logging/backend.h` and
`src/common/logging/text_formatter.cpp`.

Conventions of the embedding.

* A C string (`const char*`) is a `List Char`; the terminating NUL is the end of the list, so a
  C string holds no NUL character.  A `std::string` is a `List Char` that may hold NUL
  characters; `c_str` followed by a `%s` conversion reads it up to the first NUL.
* `unsigned int` is a `Nat` reduced modulo `2 ^ 32`, `short` is an `Int` wrapped into
  `[-2 ^ 15, 2 ^ 15)`, `std::chrono::microseconds::count()` is an `Int`.
* What a function writes to `stderr` is returned as a `List Char`.
-/

set_option maxRecDepth 20000

namespace Log

/-! ## Data model (`backend.h`) -/

/-- The log class enumeration of `log.h`, by its underlying integer value. -/
abbrev Class := Nat

/-- The log levels named by the `switch` of `PrintColoredMessage`; `Count` is the sentinel. -/
inductive Level where
  | Trace
  | Debug
  | Info
  | Warning
  | Error
  | Critical
  | Count
  deriving DecidableEq, Repr

/-- The log entry of `backend.h`. -/
structure Entry where
  timestamp : Int
  log_class : Class
  log_level : Level
  location : List Char
  message : List Char
  count : Nat
  deriving DecidableEq, Repr

/-- The `operator==` of `backend.h` on two entries. -/
def Entry.opEq (lhs rhs : Entry) : Bool :=
  (lhs.log_class == rhs.log_class) && (lhs.log_level == rhs.log_level) &&
    (lhs.location == rhs.location) && (lhs.message == rhs.message)

/-! ## C strings -/

/-- The NUL character that ends a C string. -/
def NUL : Char := Char.ofNat 0

/-- The C string seen through `std::string::c_str()`: the characters before the first NUL. -/
def c_str (s : List Char) : List Char :=
  s.takeWhile (fun c => c != NUL)

/-! ## `TrimSourcePath` (`text_formatter.cpp`) -/

/-- The test `*next_slash != '/' && *next_slash != '\\'` of the inner loop. -/
def notSlash (c : Char) : Bool :=
  c != '/' && c != '\\'

/-- Modelled from the spec: `Common::ComparePartialString` of `common/string_util.h`, which is
not part of the sources at hand.  The spec speaks of a path component that "matches `root`":
the range `[begin, end)` is compared with the C string `other`, and the result is true exactly
when the two are the same string. -/
def ComparePartialString (range other : List Char) : Bool :=
  range == other

/-- The statement `if (*p != '\0') ++p;` on the pointer `p`. -/
def stepOver : List Char → List Char
  | [] => []
  | _ :: rest => rest

/-- The outer `while (*p != '\0')` loop of `TrimSourcePath`, one iteration per unit of fuel.
`p` is the scanning pointer and `path` the current result pointer, both as the C strings they
point to.  `none` means the fuel ran out before the loop ended. -/
def TrimSourcePath.loop (root : List Char) : Nat → List Char → List Char → Option (List Char)
  | 0, _, _ => none
  | fuel + 1, p, path =>
    match p with
    | [] => some path
    | _ :: _ =>
      let next_slash := p.dropWhile notSlash
      let is_src := ComparePartialString (p.takeWhile notSlash) root
      let p1 := stepOver next_slash
      loop root fuel p1 (if is_src then p1 else path)

/-- The function `TrimSourcePath(path, root)`: the loop started at `p = path`, with one unit of
fuel per character of `path` and one for the final test. -/
def TrimSourcePath (path root : List Char) : Option (List Char) :=
  TrimSourcePath.loop root (path.length + 1) path path

/-- The components of a path, delimited by `/` or `\`: the reading of "path components" the
statements about `TrimSourcePath` use.  A path with `k` separators has `k + 1` components. -/
def components : List Char → List (List Char)
  | [] => [[]]
  | c :: cs =>
    if notSlash c then
      match components cs with
      | [] => [[c]]
      | h :: t => (c :: h) :: t
    else [] :: components cs

/-- The state reached by the loop from `(p, path)` with the fuel `TrimSourcePath` provides. -/
def run (root p path : List Char) : Option (List Char) :=
  TrimSourcePath.loop root (p.length + 1) p path

/-- A string is empty or ends with a separator: the scanning pointer is at a component start. -/
def endsWithSlash (pre : List Char) : Prop :=
  pre = [] ∨ ∃ (init : List Char) (t : Char), pre = init ++ [t] ∧ notSlash t = false

/-- A string is empty or starts with a separator: a component ends just before it. -/
def startsWithSlash (tail : List Char) : Prop :=
  tail = [] ∨ ∃ (s : Char) (rest : List Char), tail = s :: rest ∧ notSlash s = false


/-! ## `FormatLogMessage` and `PrintMessage` (`text_formatter.cpp`) -/

/-- What `text_formatter.cpp` uses and the sources at hand only declare: the two name tables of
`backend.h` (`GetLogClassName`, `GetLevelName`, both returning C strings) and the default value
of the parameter `root` of `TrimSourcePath`, which `text_formatter.h` gives and
`FormatLogMessage` relies on when it calls `TrimSourcePath(entry.location.c_str())`. -/
structure Decls where
  GetLogClassName : Class → List Char
  GetLevelName : Level → List Char
  root : List Char

/-- The conversion `static_cast<unsigned int>` of a 64-bit signed value. -/
def toUInt (x : Int) : Nat :=
  (x % 2 ^ 32).toNat

/-- The value `time_seconds` of `FormatLogMessage`. -/
def time_seconds (timestamp : Int) : Nat :=
  toUInt (Int.tdiv timestamp 1000000)

/-- The value `time_fractional` of `FormatLogMessage`. -/
def time_fractional (timestamp : Int) : Nat :=
  toUInt (Int.tmod timestamp 1000000)

/-- The decimal digits of an unsigned number, as `%u` and `%llu` print them. -/
def decimal (n : Nat) : List Char :=
  Nat.toDigits 10 n

/-- The conversions `%4u` and `%4llu`: decimal, right-aligned in a field of at least four
characters, padded with spaces. -/
def fmt_4u (n : Nat) : List Char :=
  List.leftpad 4 ' ' (decimal n)

/-- The conversion `%06u`: decimal, padded with zeros to at least six characters. -/
def fmt_06u (n : Nat) : List Char :=
  List.leftpad 6 '0' (decimal n)

/-- The conversion `%s`: the characters of the argument before the first NUL. -/
def fmt_s (s : List Char) : List Char :=
  c_str s

/-- The text the format string of `FormatLogMessage` expands to, before `snprintf` cuts it to the
buffer: `"[%4u.%06u][Repeated %4llux] %s <%s> %s: %s"` when `entry.count` is not zero and
`"[%4u.%06u] %s <%s> %s: %s"` otherwise.  `loc` is the value of
`TrimSourcePath(entry.location.c_str())`. -/
def formatted (D : Decls) (entry : Entry) (loc : List Char) : List Char :=
  let class_name := D.GetLogClassName entry.log_class
  let level_name := D.GetLevelName entry.log_level
  if entry.count ≠ 0 then
    ['['] ++ fmt_4u (time_seconds entry.timestamp) ++ ['.'] ++
      fmt_06u (time_fractional entry.timestamp) ++ "][Repeated ".toList ++
      fmt_4u entry.count ++ "x] ".toList ++ fmt_s class_name ++ " <".toList ++
      fmt_s level_name ++ "> ".toList ++ fmt_s loc ++ ": ".toList ++ fmt_s entry.message
  else
    ['['] ++ fmt_4u (time_seconds entry.timestamp) ++ ['.'] ++
      fmt_06u (time_fractional entry.timestamp) ++ "] ".toList ++ fmt_s class_name ++
      " <".toList ++ fmt_s level_name ++ "> ".toList ++ fmt_s loc ++ ": ".toList ++
      fmt_s entry.message

/-- The call `snprintf(out_text, text_len, ...)` seen on the C string held by `out_text`: with
`text_len = 0` nothing is written, otherwise the first `text_len - 1` characters of the expanded
text are written, followed by the terminating NUL. -/
def snprintf (out_text : List Char) (text_len : Nat) (text : List Char) : List Char :=
  if text_len = 0 then out_text else text.take (text_len - 1)

/-- The function `FormatLogMessage(entry, out_text, text_len)`: the C string held by `out_text`
afterwards.  `none` only if `TrimSourcePath` ran out of fuel. -/
def FormatLogMessage (D : Decls) (entry : Entry) (out_text : List Char) (text_len : Nat) :
    Option (List Char) :=
  match TrimSourcePath (c_str entry.location) D.root with
  | none => none
  | some loc => some (snprintf out_text text_len (formatted D entry loc))

/-- The call `strnlen(s, maxlen)` on a C string. -/
def strnlen (s : List Char) (maxlen : Nat) : Nat :=
  min s.length maxlen

/-- The function `PrintMessage(entry)`: what it writes to `stderr` and the value it returns.  The
buffer of `4 * 1024` bytes is not initialised; it is always written, so its first content does
not matter and is taken empty. -/
def PrintMessage (D : Decls) (entry : Entry) : Option (List Char × Nat) :=
  match FormatLogMessage D entry [] (4 * 1024) with
  | none => none
  | some format_buffer => some (format_buffer ++ ['\n'], strnlen format_buffer (4 * 1024))

/-! ## `PrintColoredMessage`, POSIX variant (`text_formatter.cpp`) -/

/-- The macro `ESC`. -/
def ESC : List Char := [Char.ofNat 27]

/-- The character `'\b'`. -/
def BS : Char := Char.ofNat 8

/-- The two `static short` variables of `PrintColoredMessage`. -/
structure RenderState where
  last_msg_size : Int
  last_cols : Int
  deriving DecidableEq, Repr

/-- Both statics are zero-initialised. -/
def RenderState.init : RenderState :=
  { last_msg_size := 0, last_cols := 0 }

/-- The conversion of an integer to `short` (two's complement, 16 bits). -/
def toShort (x : Int) : Int :=
  (x + 2 ^ 15) % 2 ^ 16 - 2 ^ 15

/-- The `switch (entry.log_level)` of the POSIX variant; `none` is the `UNREACHABLE()` of the
`Level::Count` case, which halts the program. -/
def color (level : Level) : Option (List Char) :=
  match level with
  | Level.Trace => some (ESC ++ "[1;30m".toList)
  | Level.Debug => some (ESC ++ "[0;36m".toList)
  | Level.Info => some (ESC ++ "[0;37m".toList)
  | Level.Warning => some (ESC ++ "[1;33m".toList)
  | Level.Error => some (ESC ++ "[1;31m".toList)
  | Level.Critical => some (ESC ++ "[1;35m".toList)
  | Level.Count => none

/-- The function `std::to_string(int)`. -/
def to_string (i : Int) : List Char :=
  if i < 0 then '-' :: decimal i.natAbs else decimal i.toNat

/-- The value `last_msg_lines`: `(last_msg_size % last_cols) ? last_msg_size / last_cols + 1 :
last_msg_size / last_cols`, in the `int` arithmetic of C (truncating division). -/
def last_msg_lines (last_msg_size last_cols : Int) : Int :=
  if Int.tmod last_msg_size last_cols ≠ 0 then Int.tdiv last_msg_size last_cols + 1
  else Int.tdiv last_msg_size last_cols

/-- What the block `if (entry.count && last_cols)` writes to `stderr`. -/
def erase (st : RenderState) (entry : Entry) : List Char :=
  if entry.count ≠ 0 ∧ st.last_cols ≠ 0 then
    ESC ++ ['['] ++ to_string (last_msg_lines st.last_msg_size st.last_cols) ++ ['A'] ++ [BS] ++
      ESC ++ "[J".toList
  else []

/-- The function `PrintColoredMessage(entry)`, POSIX variant, as a step on the two statics.
`ioctl` is the outcome of `ioctl(fileno(stderr), TIOCGWINSZ, &size)`: `none` when it fails,
`some ws_col` (an `unsigned short`) when it returns 0.  The result is the new state and what was
written to `stderr`; `none` means the program halted at `UNREACHABLE()` (the formatter itself
always returns, see `PrintMessage_eq`). -/
def PrintColoredMessage (D : Decls) (st : RenderState) (ioctl : Option Nat) (entry : Entry) :
    Option (RenderState × List Char) :=
  match color entry.log_level with
  | none => none
  | some color =>
    let out1 := erase st entry
    let last_cols := match ioctl with
      | some ws_col => toShort ((ws_col % 2 ^ 16 : Nat) : Int)
      | none => st.last_cols
    let out2 := out1 ++ color
    match PrintMessage D entry with
    | none => none
    | some (printed, size) =>
      some ({ last_msg_size := toShort (size : Int), last_cols := last_cols },
        out2 ++ printed ++ ESC ++ "[0m".toList)

/-! ## Vocabulary of the statements -/

/-- A decimal digit character is one of `'0'` .. `'9'`. -/
def isDigitChar (c : Char) : Bool :=
  '0'.toNat ≤ c.toNat && c.toNat ≤ '9'.toNat

/-- The pointer `TrimSourcePath` returns, as a total function; `TrimSourcePath_some` shows the
loop always ends within its fuel and returns this value. -/
def trimmed (path root : List Char) : List Char :=
  match TrimSourcePath path root with
  | some r => r
  | none => path

/-- Reading a field of the line back as a number: leading spaces are skipped, then the decimal
digits are read. -/
def readNat (field : List Char) : Nat :=
  (field.dropWhile (fun c => c == ' ')).foldl (fun acc c => 10 * acc + (c.toNat - '0'.toNat)) 0

/-- A sample of the absent declarations: every class is named `Core`, the levels have their
enumerator names, and the default root is `src`. -/
def sampleDecls : Decls :=
  { GetLogClassName := fun _ => "Core".toList
    GetLevelName := fun l =>
      match l with
      | Level.Trace => "Trace".toList
      | Level.Debug => "Debug".toList
      | Level.Info => "Info".toList
      | Level.Warning => "Warning".toList
      | Level.Error => "Error".toList
      | Level.Critical => "Critical".toList
      | Level.Count => "Count".toList
    root := "src".toList }

/-- A sample entry, logged one second after the start. -/
def sampleEntry : Entry :=
  { timestamp := 1000000
    log_class := 0
    log_level := Level.Info
    location := "/build/src/core/a.cpp:f:12".toList
    message := "boot complete".toList
    count := 0 }

/-- The line the spec gives for an entry that is no repeat,
`[<secs>.<frac6>][<CategoryName>] <SeverityName> <location>: <message>`, with the two number
fields as the code prints them. -/
def specLine (D : Decls) (entry : Entry) : List Char :=
  "[".toList ++ fmt_4u (time_seconds entry.timestamp) ++ ".".toList ++
    fmt_06u (time_fractional entry.timestamp) ++ "][".toList ++
    fmt_s (D.GetLogClassName entry.log_class) ++ "] ".toList ++
    fmt_s (D.GetLevelName entry.log_level) ++ " ".toList ++ fmt_s entry.location ++
    ": ".toList ++ fmt_s entry.message

/-- The marker the spec gives for a repeat entry, `Repeated <N>x`: the word, one space, the
decimal rendering of `N`, and `x`. -/
def specMarker (N : Nat) : List Char :=
  "Repeated ".toList ++ decimal N ++ "x".toList

/-- The seconds field as the spec gives it: decimal, padded with zeros to at least four
digits. -/
def specSecs (secs : Nat) : List Char :=
  List.leftpad 4 '0' (decimal secs)

/-- The untruncated rendering of an entry: what the format string of `FormatLogMessage` expands
to, with the location as `TrimSourcePath` returns it for the default root. -/
def rendering (D : Decls) (entry : Entry) : List Char :=
  formatted D entry (trimmed (c_str entry.location) D.root)

/-- A sequence of calls of `PrintColoredMessage` (POSIX variant), each with the outcome of its
width query and its entry, threading the two statics: the final state and what each call wrote
to `stderr`. -/
def PrintColoredMessages (D : Decls) :
    RenderState → List (Option Nat × Entry) → Option (RenderState × List (List Char))
  | st, [] => some (st, [])
  | st, (ioctl, entry) :: calls =>
    match PrintColoredMessage D st ioctl entry with
    | none => none
    | some (st1, out1) =>
      match PrintColoredMessages D st1 calls with
      | none => none
      | some (st2, outs) => some (st2, out1 :: outs)

/-- The colour table as the spec gives it: Trace `ESC[1;30m`, Debug `ESC[0;36m`, Info
`ESC[0;37m`, Warning `ESC[1;33m`, Error `ESC[1;31m`, Critical `ESC[1;35m`; the sentinel has no
colour. -/
def specColour (level : Level) : List Char :=
  match level with
  | Level.Trace => Char.ofNat 27 :: "[1;30m".toList
  | Level.Debug => Char.ofNat 27 :: "[0;36m".toList
  | Level.Info => Char.ofNat 27 :: "[0;37m".toList
  | Level.Warning => Char.ofNat 27 :: "[1;33m".toList
  | Level.Error => Char.ofNat 27 :: "[1;31m".toList
  | Level.Critical => Char.ofNat 27 :: "[1;35m".toList
  | Level.Count => []

/-- The sequence that moves the cursor up by `n` rows, goes back one column and erases to the
end of the screen: `ESC [ n A`, backspace, `ESC [J`. -/
def eraseSequence (n : Nat) : List Char :=
  ESC ++ "[".toList ++ decimal n ++ "A".toList ++ [BS] ++ ESC ++ "[J".toList

/-! ## `PrintColoredMessage`, Windows variant (`text_formatter.cpp`) -/

/-- The fields of `CONSOLE_SCREEN_BUFFER_INFO` the function reads: `dwSize.X` and
`dwCursorPosition.Y` (both `SHORT`) and `wAttributes` (a `WORD`). -/
structure ConsoleInfo where
  dwSizeX : Int
  dwCursorPositionY : Int
  wAttributes : Nat
  deriving DecidableEq, Repr

/-- The initialiser `original_info = {0}`. -/
def ConsoleInfo.zero : ConsoleInfo :=
  { dwSizeX := 0, dwCursorPositionY := 0, wAttributes := 0 }

/-- What the Windows variant does to the console, in order: the calls of
`SetConsoleCursorPosition` (with the two fields of the `COORD`) and of
`SetConsoleTextAttribute`, and the characters written to `stderr`. -/
inductive ConsoleOp where
  | SetConsoleCursorPosition (X Y : Int)
  | SetConsoleTextAttribute (attributes : Nat)
  | write (text : List Char)
  deriving DecidableEq, Repr

/-- How a call of the Windows variant ends: it returns, or the program halts at
`UNREACHABLE()`, or it divides an integer by zero. `fuel` stands for the model of
`TrimSourcePath` running out of fuel, which `PrintMessage_eq` excludes. -/
inductive Outcome (α : Type) where
  | returns (value : α)
  | unreachable
  | divisionByZero
  | fuel
  deriving DecidableEq, Repr

/-- The console attribute bits of `wincon.h`. -/
def FOREGROUND_BLUE : Nat := 1

/-- The console attribute bit of `wincon.h` for green. -/
def FOREGROUND_GREEN : Nat := 2

/-- The console attribute bit of `wincon.h` for red. -/
def FOREGROUND_RED : Nat := 4

/-- The console attribute bit of `wincon.h` for intensity. -/
def FOREGROUND_INTENSITY : Nat := 8

/-- The `switch (entry.log_level)` of the Windows variant; `none` is the `UNREACHABLE()` of
the `Level::Count` case. -/
def colorWin (level : Level) : Option Nat :=
  match level with
  | Level.Trace => some FOREGROUND_INTENSITY
  | Level.Debug => some (FOREGROUND_GREEN ||| FOREGROUND_BLUE)
  | Level.Info => some (FOREGROUND_RED ||| FOREGROUND_GREEN ||| FOREGROUND_BLUE)
  | Level.Warning => some (FOREGROUND_RED ||| FOREGROUND_GREEN ||| FOREGROUND_INTENSITY)
  | Level.Error => some (FOREGROUND_RED ||| FOREGROUND_INTENSITY)
  | Level.Critical => some (FOREGROUND_RED ||| FOREGROUND_BLUE ||| FOREGROUND_INTENSITY)
  | Level.Count => none

/-- The part of the Windows variant after the block `if (entry.count)`: the `switch`, the
attribute, `PrintMessage` and the restored attribute. `ops1` is what the block did. -/
def PrintColoredMessageWin.finish (D : Decls) (original_info : ConsoleInfo)
    (ops1 : List ConsoleOp) (entry : Entry) : Outcome (Int × List ConsoleOp) :=
  match colorWin entry.log_level with
  | none => Outcome.unreachable
  | some color =>
    match PrintMessage D entry with
    | none => Outcome.fuel
    | some (printed, size) =>
      Outcome.returns (toShort (size : Int),
        ops1 ++ [ConsoleOp.SetConsoleTextAttribute color, ConsoleOp.write printed,
          ConsoleOp.SetConsoleTextAttribute original_info.wAttributes])

/-- The function `PrintColoredMessage(entry)`, Windows variant, as a step on the static
`last_msg_size`. `query` is the outcome of `GetConsoleScreenBufferInfo`: `none` when it fails
and `original_info` keeps its zeros, `some info` when it fills `original_info`. The block
`if (entry.count)` computes
`dwCursorPosition.Y - last_msg_size / dwSize.X - 1` in `int`, dividing by `dwSize.X` whatever
its value, and stores the result in the `SHORT` field `Y` of the `COORD`. -/
def PrintColoredMessageWin (D : Decls) (last_msg_size : Int) (query : Option ConsoleInfo)
    (entry : Entry) : Outcome (Int × List ConsoleOp) :=
  let original_info : ConsoleInfo := match query with
    | some info => info
    | none => ConsoleInfo.zero
  if entry.count ≠ 0 then
    if original_info.dwSizeX = (0 : Int) then Outcome.divisionByZero
    else
      PrintColoredMessageWin.finish D original_info
        [ConsoleOp.SetConsoleCursorPosition 0
            (toShort (original_info.dwCursorPositionY -
              Int.tdiv last_msg_size original_info.dwSizeX - 1)),
          ConsoleOp.write [BS]] entry
  else PrintColoredMessageWin.finish D original_info [] entry

/-- The components of a path that are followed by a separator: all but the last one. -/
def closedComponents (path : List Char) : List (List Char) :=
  (components path).dropLast

/-- The path starts with a separator. -/
def leadingSlash : List Char → Bool
  | [] => false
  | c :: _ => !notSlash c

/-- The path holds two adjacent separators. -/
def adjacentSlashes : List Char → Bool
  | a :: b :: t => (!notSlash a && !notSlash b) || adjacentSlashes (b :: t)
  | _ => false

/-- The outcomes of the width query the invariant is stated for: failure, or a column count in
`1 .. 32767`. -/
def validQuery (ioctl : Option Nat) : Bool :=
  match ioctl with
  | none => true
  | some ws_col => decide (1 ≤ ws_col) && decide (ws_col ≤ 32767)

/-- The invariant of the two statics: both are within `0 .. 4095` and `0 .. 32767`, and a
recorded column count comes with a recorded width of at least 1. -/
def renderInvariant (st : RenderState) : Prop :=
  0 ≤ st.last_msg_size ∧ st.last_msg_size ≤ 4095 ∧ 0 ≤ st.last_cols ∧ st.last_cols ≤ 32767 ∧
    (st.last_cols ≠ 0 → 1 ≤ st.last_msg_size)

/-! ## Facts about `TrimSourcePath` -/

theorem stepOver_dropWhile_length (c : Char) (cs : List Char) :
    (stepOver ((c :: cs).dropWhile notSlash)).length < (c :: cs).length := by
  have h : ((c :: cs).dropWhile notSlash).length ≤ (c :: cs).length :=
    (List.dropWhile_sublist _).length_le
  cases hd : (c :: cs).dropWhile notSlash with
  | nil => simp [stepOver]
  | cons x r =>
    rw [hd] at h
    simp only [stepOver, List.length_cons] at h ⊢
    omega

theorem loop_nil (root : List Char) (fuel : Nat) (path : List Char) :
    TrimSourcePath.loop root (fuel + 1) [] path = some path := rfl

theorem loop_cons (root : List Char) (fuel : Nat) (c : Char) (cs path : List Char) :
    TrimSourcePath.loop root (fuel + 1) (c :: cs) path =
      TrimSourcePath.loop root fuel (stepOver ((c :: cs).dropWhile notSlash))
        (if ComparePartialString ((c :: cs).takeWhile notSlash) root
          then stepOver ((c :: cs).dropWhile notSlash) else path) := rfl

/-- Fuel beyond the length of the scanned string does not change the result. -/
theorem loop_fuel (root : List Char) :
    ∀ (n m : Nat) (p path : List Char), p.length < n → p.length < m →
      TrimSourcePath.loop root n p path = TrimSourcePath.loop root m p path := by
  intro n
  induction n with
  | zero => intro m p path h; omega
  | succ n ih =>
    intro m p path hn hm
    cases m with
    | zero => omega
    | succ m =>
      cases p with
      | nil => rfl
      | cons c cs =>
        rw [loop_cons, loop_cons]
        have hlt := stepOver_dropWhile_length c cs
        apply ih
        · omega
        · omega

theorem run_nil (root path : List Char) : run root [] path = some path := rfl

theorem run_cons (root : List Char) (c : Char) (cs path : List Char) :
    run root (c :: cs) path =
      run root (stepOver ((c :: cs).dropWhile notSlash))
        (if ComparePartialString ((c :: cs).takeWhile notSlash) root
          then stepOver ((c :: cs).dropWhile notSlash) else path) := by
  unfold run
  rw [loop_cons]
  have hlt := stepOver_dropWhile_length c cs
  apply loop_fuel
  · simpa using hlt
  · omega

theorem TrimSourcePath_eq_run (path root : List Char) :
    TrimSourcePath path root = run root path path := rfl

theorem dropWhile_head_notSlash (p : List Char) (x : Char) (r : List Char)
    (h : p.dropWhile notSlash = x :: r) : notSlash x = false := by
  induction p with
  | nil => simp at h
  | cons c cs ih =>
    rw [List.dropWhile_cons] at h
    split at h
    · exact ih h
    · rename_i hc
      simp only [List.cons.injEq] at h
      rw [← h.1]
      simpa using hc

/-- The first component is what the inner loop scans; the others are those of the rest. -/
theorem components_unfold (p : List Char) :
    components p = p.takeWhile notSlash ::
      (match p.dropWhile notSlash with
        | [] => []
        | _ :: r => components r) := by
  induction p with
  | nil => rfl
  | cons c cs ih =>
    by_cases hc : notSlash c = true
    · simp only [components, hc, if_true, List.takeWhile_cons, List.dropWhile_cons]
      rw [ih]
    · simp only [components, hc, List.takeWhile_cons, List.dropWhile_cons]
      simp

/-- When no component is `root`, the loop leaves the result pointer where it was. -/
theorem run_no_match (root : List Char) :
    ∀ (n : Nat) (p path : List Char), p.length ≤ n → root ∉ components p →
      run root p path = some path := by
  intro n
  induction n with
  | zero =>
    intro p path hn _
    have : p = [] := List.length_eq_zero.mp (Nat.le_zero.mp hn)
    subst this
    rfl
  | succ n ih =>
    intro p path hn hno
    cases p with
    | nil => rfl
    | cons c cs =>
      rw [run_cons]
      rw [components_unfold] at hno
      have hlt := stepOver_dropWhile_length c cs
      simp only [List.mem_cons, not_or] at hno
      have hcmp : ComparePartialString ((c :: cs).takeWhile notSlash) root = false := by
        simp only [ComparePartialString, beq_eq_false_iff_ne, ne_eq]
        exact fun h => hno.1 h.symm
      rw [hcmp]
      simp only [Bool.false_eq_true, if_false]
      cases hd : (c :: cs).dropWhile notSlash with
      | nil => rfl
      | cons x r =>
        rw [hd] at hno hlt
        simp only [stepOver] at hlt ⊢
        simp only [List.length_cons] at hlt hn
        exact ih r path (by omega) hno.2

theorem run_last_match (root : List Char) (hroot : root ≠ []) :
    ∀ (n : Nat) (p path : List Char), p.length ≤ n → root ∈ components p →
      ∃ (pre tail : List Char), p = pre ++ root ++ tail ∧ endsWithSlash pre ∧
        startsWithSlash tail ∧ root ∉ components (stepOver tail) ∧
        run root p path = some (stepOver tail) := by
  intro n
  induction n with
  | zero =>
    intro p path hn hin
    have : p = [] := List.length_eq_zero.mp (Nat.le_zero.mp hn)
    subst this
    simp only [components, List.mem_singleton] at hin
    exact absurd hin hroot
  | succ n ih =>
    intro p path hn hin
    cases p with
    | nil =>
      simp only [components, List.mem_singleton] at hin
      exact absurd hin hroot
    | cons c cs =>
      have hsplit : (c :: cs).takeWhile notSlash ++ (c :: cs).dropWhile notSlash = c :: cs :=
        List.takeWhile_append_dropWhile _ _
      have hlt := stepOver_dropWhile_length c cs
      rw [components_unfold] at hin
      rw [run_cons]
      cases hd : (c :: cs).dropWhile notSlash with
      | nil =>
        rw [hd] at hin hsplit
        simp only [List.mem_cons, List.not_mem_nil, or_false] at hin
        refine ⟨[], [], ?_, Or.inl rfl, Or.inl rfl, ?_, ?_⟩
        · exact hsplit.symm.trans (by rw [hin]; simp)
        · simp only [stepOver, components, List.mem_singleton]; exact hroot
        · simp [ComparePartialString, hin, stepOver, run_nil]
      | cons x r =>
        rw [hd] at hin hsplit hlt
        have hx := dropWhile_head_notSlash _ _ _ hd
        simp only [stepOver, List.length_cons] at hlt hn ⊢
        by_cases hr : root ∈ components r
        · obtain ⟨pre, tail, hp, hpre, htail, hlast, hrun⟩ :=
            ih r (if ComparePartialString ((c :: cs).takeWhile notSlash) root then r else path)
              (by omega) hr
          refine ⟨(c :: cs).takeWhile notSlash ++ x :: pre, tail, ?_, ?_, htail, hlast, hrun⟩
          · exact hsplit.symm.trans (by rw [hp]; simp)
          · rcases hpre with hnil | ⟨init, t, hinit, ht⟩
            · exact Or.inr ⟨(c :: cs).takeWhile notSlash, x, by rw [hnil], hx⟩
            · exact Or.inr ⟨(c :: cs).takeWhile notSlash ++ x :: init, t, by rw [hinit]; simp, ht⟩
        · simp only [List.mem_cons] at hin
          have hin1 : root = (c :: cs).takeWhile notSlash := hin.resolve_right hr
          refine ⟨[], x :: r, ?_, Or.inl rfl, Or.inr ⟨x, r, rfl, hx⟩, hr, ?_⟩
          · exact hsplit.symm.trans (by rw [hin1]; simp)
          · have hcmp : ComparePartialString ((c :: cs).takeWhile notSlash) root = true := by
              simp [ComparePartialString, hin1]
            rw [hcmp]
            simp only [if_true, stepOver]
            exact run_no_match root r.length r r (Nat.le_refl _) hr

/-! ## Facts about the decimal conversion -/

theorem toDigitsCore_acc : ∀ (fuel n : Nat) (acc : List Char),
    Nat.toDigitsCore 10 fuel n acc = Nat.toDigitsCore 10 fuel n [] ++ acc := by
  intro fuel
  induction fuel with
  | zero => intro n acc; simp [Nat.toDigitsCore]
  | succ fuel ih =>
    intro n acc
    simp only [Nat.toDigitsCore]
    by_cases h : n / 10 = 0
    · simp [h]
    · simp only [h, if_false]
      rw [ih (n / 10) (Nat.digitChar (n % 10) :: acc), ih (n / 10) [Nat.digitChar (n % 10)]]
      simp

theorem toDigitsCore_fuel : ∀ (f g n : Nat) (acc : List Char), n < f → n < g →
    Nat.toDigitsCore 10 f n acc = Nat.toDigitsCore 10 g n acc := by
  intro f
  induction f with
  | zero => intro g n acc h; omega
  | succ f ih =>
    intro g n acc hf hg
    cases g with
    | zero => omega
    | succ g =>
      simp only [Nat.toDigitsCore]
      by_cases h : n / 10 = 0
      · simp [h]
      · simp only [h, if_false]
        apply ih <;> omega

/-- The digits of a number: one digit below ten, else the digits of the tenth and the last. -/
theorem decimal_unfold (n : Nat) :
    decimal n = if n < 10 then [Nat.digitChar n]
      else decimal (n / 10) ++ [Nat.digitChar (n % 10)] := by
  unfold decimal Nat.toDigits
  by_cases h : n < 10
  · have h0 : n / 10 = 0 := by omega
    have h1 : n % 10 = n := by omega
    simp [Nat.toDigitsCore, h, h0, h1]
  · have h0 : ¬ n / 10 = 0 := by omega
    have hL : Nat.toDigitsCore 10 (n + 1) n [] =
        Nat.toDigitsCore 10 n (n / 10) [Nat.digitChar (n % 10)] := by
      simp only [Nat.toDigitsCore, h0, if_false]
    rw [if_neg h, hL, toDigitsCore_acc,
      toDigitsCore_fuel n (n / 10 + 1) (n / 10) [] (by omega) (by omega)]

theorem digitChar_isDigit (d : Nat) (h : d < 10) : isDigitChar (Nat.digitChar d) = true := by
  interval_cases d <;> decide

theorem digitChar_value (d : Nat) (h : d < 10) : (Nat.digitChar d).toNat - '0'.toNat = d := by
  interval_cases d <;> decide

theorem decimal_digits : ∀ (k n : Nat), n < k → ∀ c ∈ decimal n, isDigitChar c = true := by
  intro k
  induction k with
  | zero => intro n h; omega
  | succ k ih =>
    intro n hn c hc
    rw [decimal_unfold] at hc
    by_cases h : n < 10
    · simp only [h, if_true, List.mem_singleton] at hc
      rw [hc]; exact digitChar_isDigit n h
    · simp only [h, if_false, List.mem_append, List.mem_singleton] at hc
      rcases hc with hc | hc
      · exact ih (n / 10) (by omega) c hc
      · rw [hc]; exact digitChar_isDigit _ (Nat.mod_lt _ (by decide))

theorem decimal_ne_nil (n : Nat) : decimal n ≠ [] := by
  rw [decimal_unfold]
  by_cases h : n < 10 <;> simp [h]

theorem decimal_length_le : ∀ (e n : Nat), n < 10 ^ (e + 1) → (decimal n).length ≤ e + 1 := by
  intro e
  induction e with
  | zero =>
    intro n hn
    rw [decimal_unfold]
    simp only [zero_add, pow_one] at hn
    simp [hn]
  | succ e ih =>
    intro n hn
    rw [decimal_unfold]
    by_cases h : n < 10
    · simp [h]
    · simp only [h, if_false, List.length_append, List.length_singleton]
      have : n / 10 < 10 ^ (e + 1) := by
        rw [Nat.div_lt_iff_lt_mul (by decide)]
        rw [pow_succ] at hn
        exact hn
      have := ih (n / 10) this
      omega

theorem decimal_length_ge : ∀ (e n : Nat), 10 ^ e ≤ n → e + 1 ≤ (decimal n).length := by
  intro e
  induction e with
  | zero =>
    intro n _
    have := decimal_ne_nil n
    cases hd : decimal n with
    | nil => exact absurd hd this
    | cons a l => simp
  | succ e ih =>
    intro n hn
    rw [decimal_unfold]
    have h10 : 10 ≤ 10 ^ (e + 1) := by
      calc 10 = 10 ^ 1 := by norm_num
        _ ≤ 10 ^ (e + 1) := Nat.pow_le_pow_right (by decide) (by omega)
    have h : ¬ n < 10 := by omega
    simp only [h, if_false, List.length_append, List.length_singleton]
    have : 10 ^ e ≤ n / 10 := by
      rw [Nat.le_div_iff_mul_le (by decide)]
      rw [pow_succ] at hn
      exact hn
    have := ih (n / 10) this
    omega

/-! ## Termination and range of `TrimSourcePath` -/

/-- The loop ends within the fuel, and its result is the old result pointer or a suffix of the
scanned string. -/
theorem run_some (root : List Char) :
    ∀ (n : Nat) (p path : List Char), p.length ≤ n →
      ∃ r, run root p path = some r ∧ (r = path ∨ r <:+ p) := by
  intro n
  induction n with
  | zero =>
    intro p path hn
    have : p = [] := List.length_eq_zero.mp (Nat.le_zero.mp hn)
    subst this
    exact ⟨path, rfl, Or.inl rfl⟩
  | succ n ih =>
    intro p path hn
    cases p with
    | nil => exact ⟨path, rfl, Or.inl rfl⟩
    | cons c cs =>
      rw [run_cons]
      have hlt := stepOver_dropWhile_length c cs
      have hsuf : stepOver ((c :: cs).dropWhile notSlash) <:+ c :: cs := by
        have h1 : (c :: cs).dropWhile notSlash <:+ c :: cs := List.dropWhile_suffix _
        cases hd : (c :: cs).dropWhile notSlash with
        | nil => exact List.nil_suffix
        | cons x r =>
          rw [hd] at h1
          exact (List.suffix_cons x r).trans h1
      simp only [List.length_cons] at hlt hn
      obtain ⟨r, hr, hcase⟩ := ih (stepOver ((c :: cs).dropWhile notSlash))
        (if ComparePartialString ((c :: cs).takeWhile notSlash) root
          then stepOver ((c :: cs).dropWhile notSlash) else path) (by omega)
      refine ⟨r, hr, ?_⟩
      rcases hcase with h | h
      · by_cases hc : ComparePartialString ((c :: cs).takeWhile notSlash) root = true
        · rw [if_pos hc] at h
          exact Or.inr (h ▸ hsuf)
        · rw [if_neg hc] at h
          exact Or.inl h
      · exact Or.inr (h.trans hsuf)

/-- The function `TrimSourcePath` always returns, and returns `trimmed`. -/
theorem TrimSourcePath_some (path root : List Char) :
    TrimSourcePath path root = some (trimmed path root) := by
  obtain ⟨r, hr, _⟩ := run_some root path.length path path (Nat.le_refl _)
  rw [TrimSourcePath_eq_run] at *
  simp only [trimmed, TrimSourcePath_eq_run, hr]

theorem trimmed_suffix (path root : List Char) : trimmed path root <:+ path := by
  obtain ⟨r, hr, h⟩ := run_some root path.length path path (Nat.le_refl _)
  have : trimmed path root = r := by
    simp only [trimmed, TrimSourcePath_eq_run, hr]
  rw [this]
  rcases h with h | h
  · rw [h]
  · exact h

/-! ## Entry equality -/

/-- C1: `operator==` on two entries is true exactly when their `log_class`, `log_level`,
`location` and `message` are equal, and replacing the `timestamp` and `count` of either entry
by any other values never changes the result. -/
theorem opEq_iff_fields (e1 e2 : Entry) :
    (Entry.opEq e1 e2 = true ↔
      (e1.log_class = e2.log_class ∧ e1.log_level = e2.log_level ∧
        e1.location = e2.location ∧ e1.message = e2.message)) ∧
    (∀ (t1 t2 : Int) (n1 n2 : Nat),
      Entry.opEq { e1 with timestamp := t1, count := n1 }
        { e2 with timestamp := t2, count := n2 } = Entry.opEq e1 e2) := by
  constructor
  · simp only [Entry.opEq, Bool.and_eq_true, beq_iff_eq]
    tauto
  · intro t1 t2 n1 n2
    rfl

/-! ## Path trimming -/

/-- C2: for a non-empty `root` that is one of the components of `path`, the path splits as
`pre ++ root ++ tail` where `pre` is empty or ends with a separator, `tail` is empty or starts
with a separator, no component after that separator is `root` (so this is the last component
equal to `root`), and `TrimSourcePath` returns what follows the component and its separator. -/
theorem TrimSourcePath_after_last_match (path root : List Char) (hroot : root ≠ [])
    (hin : root ∈ components path) :
    ∃ (pre tail : List Char), path = pre ++ root ++ tail ∧ endsWithSlash pre ∧
      startsWithSlash tail ∧ root ∉ components (stepOver tail) ∧
      TrimSourcePath path root = some (stepOver tail) :=
  run_last_match root hroot path.length path path (Nat.le_refl _) hin

/-- The statement of C2 at `/src/a/src/b.cpp` with root `src`, and the two results the claim
names. -/
theorem TrimSourcePath_after_last_match_witness :
    "src".toList ≠ [] ∧ "src".toList ∈ components "/src/a/src/b.cpp".toList ∧
    (∃ (pre tail : List Char), "/src/a/src/b.cpp".toList = pre ++ "src".toList ++ tail ∧
      endsWithSlash pre ∧ startsWithSlash tail ∧ "src".toList ∉ components (stepOver tail) ∧
      TrimSourcePath "/src/a/src/b.cpp".toList "src".toList = some (stepOver tail)) ∧
    TrimSourcePath "/src/a/src/b.cpp".toList "src".toList = some "b.cpp".toList ∧
    TrimSourcePath "/build/src/foo/bar.cpp".toList "src".toList = some "foo/bar.cpp".toList :=
  ⟨by decide, by decide,
    TrimSourcePath_after_last_match "/src/a/src/b.cpp".toList "src".toList (by decide)
      (by decide),
    by decide, by decide⟩

/-- C3: when no component of `path` is equal to `root`, `TrimSourcePath` returns `path`
unchanged. -/
theorem TrimSourcePath_no_match (path root : List Char) (hno : root ∉ components path) :
    TrimSourcePath path root = some path :=
  run_no_match root path.length path path (Nat.le_refl _) hno

/-- The statement of C3 at `/build/nomatch.cpp` with root `src`; a component that only starts
with `src` (`srcs`) and one that is a proper beginning of `src` (`sr`) are no matches either. -/
theorem TrimSourcePath_no_match_witness :
    "src".toList ∉ components "/build/nomatch.cpp".toList ∧
    TrimSourcePath "/build/nomatch.cpp".toList "src".toList = some "/build/nomatch.cpp".toList ∧
    TrimSourcePath "/build/srcs/a.cpp".toList "src".toList = some "/build/srcs/a.cpp".toList ∧
    TrimSourcePath "/build/sr/a.cpp".toList "src".toList = some "/build/sr/a.cpp".toList :=
  ⟨by decide,
    TrimSourcePath_no_match "/build/nomatch.cpp".toList "src".toList (by decide),
    by decide, by decide⟩

/-! ## Facts about C strings and infixes -/

theorem c_str_no_NUL (s : List Char) : NUL ∉ c_str s := by
  intro h
  have := List.mem_takeWhile_imp h
  simp at this

theorem c_str_of_no_NUL (s : List Char) (h : NUL ∉ s) : c_str s = s := by
  unfold c_str
  rw [List.takeWhile_eq_self_iff]
  intro c hc
  simp only [bne_iff_ne, ne_eq]
  intro hcn
  exact h (hcn ▸ hc)

/-- The `%s` conversion prints the trimmed location whole. -/
theorem fmt_s_trimmed (location root : List Char) :
    fmt_s (trimmed (c_str location) root) = trimmed (c_str location) root := by
  apply c_str_of_no_NUL
  intro h
  exact c_str_no_NUL location ((trimmed_suffix (c_str location) root).subset h)

/-- A word found in `a ++ c :: b` that does not hold the character `c` lies in `a` or in `b`. -/
theorem infix_split (w a b : List Char) (c : Char) (hc : c ∉ w) (h : w <:+: a ++ c :: b) :
    w <:+: a ∨ w <:+: b := by
  obtain ⟨s, t, hst⟩ := h
  rw [List.append_assoc, List.append_eq_append_iff] at hst
  rcases hst with ⟨a1, ha, hw⟩ | ⟨c1, hs, hcb⟩
  · rw [List.append_eq_append_iff] at hw
    rcases hw with ⟨x, hx, _⟩ | ⟨x, hx, hcx⟩
    · left
      exact ⟨s, x, by rw [ha, hx]; simp⟩
    · cases x with
      | nil =>
        left
        exact ⟨s, [], by rw [ha, hx]; simp⟩
      | cons y x1 =>
        simp only [List.cons_append, List.cons.injEq] at hcx
        exfalso
        apply hc
        rw [hx, hcx.1]
        simp
  · cases c1 with
    | nil =>
      simp only [List.nil_append] at hcb
      cases w with
      | nil => left; exact List.nil_infix
      | cons y w1 =>
        simp only [List.cons_append, List.cons.injEq] at hcb
        exfalso
        apply hc
        rw [hcb.1]
        simp
    | cons y c2 =>
      simp only [List.cons_append, List.cons.injEq] at hcb
      right
      exact ⟨c2, t, by rw [hcb.2]; simp⟩

theorem infix_cons_skip (w b : List Char) (c : Char) (hc : c ∉ w) (h : w <:+: c :: b) :
    w <:+: b := by
  rcases infix_split w [] b c hc (by simpa using h) with h1 | h1
  · have : w = [] := List.eq_nil_of_infix_nil h1
    rw [this]
    exact List.nil_infix
  · exact h1

/-! ## Facts about the formatter -/

/-- The function `FormatLogMessage` always returns: the buffer holds the expanded text cut by
`snprintf`. -/
theorem FormatLogMessage_eq (D : Decls) (entry : Entry) (out_text : List Char) (text_len : Nat) :
    FormatLogMessage D entry out_text text_len =
      some (snprintf out_text text_len
        (formatted D entry (trimmed (c_str entry.location) D.root))) := by
  simp only [FormatLogMessage, TrimSourcePath_some]

theorem PrintMessage_eq (D : Decls) (entry : Entry) :
    PrintMessage D entry =
      some ((formatted D entry (trimmed (c_str entry.location) D.root)).take 4095 ++ ['\n'],
        min (formatted D entry (trimmed (c_str entry.location) D.root)).length 4095) := by
  simp only [PrintMessage, FormatLogMessage_eq, snprintf, strnlen]
  have h0 : ¬ (4 * 1024 = 0) := by decide
  have h1 : 4 * 1024 - 1 = 4095 := by decide
  rw [if_neg h0, h1, List.length_take]
  congr 2
  omega

/-- The layout of the expanded text of an entry that is no repeat. -/
theorem formatted_zero (D : Decls) (entry : Entry) (loc : List Char) (h : entry.count = 0) :
    formatted D entry loc =
      '[' :: (fmt_4u (time_seconds entry.timestamp) ++
        '.' :: (fmt_06u (time_fractional entry.timestamp) ++
        ']' :: ' ' :: (fmt_s (D.GetLogClassName entry.log_class) ++
        ' ' :: '<' :: (fmt_s (D.GetLevelName entry.log_level) ++
        '>' :: ' ' :: (fmt_s loc ++
        ':' :: ' ' :: fmt_s entry.message))))) := by
  have e1 : "] ".toList = [']', ' '] := rfl
  have e2 : " <".toList = [' ', '<'] := rfl
  have e3 : "> ".toList = ['>', ' '] := rfl
  have e4 : ": ".toList = [':', ' '] := rfl
  simp only [formatted, h, ne_eq, not_true_eq_false, if_false, e1, e2, e3, e4,
    List.append_assoc, List.cons_append, List.nil_append]

/-- The layout of the expanded text of a repeat entry. -/
theorem formatted_repeat (D : Decls) (entry : Entry) (loc : List Char) (h : entry.count ≠ 0) :
    formatted D entry loc =
      '[' :: (fmt_4u (time_seconds entry.timestamp) ++
        '.' :: (fmt_06u (time_fractional entry.timestamp) ++
        ']' :: '[' :: ("Repeated ".toList ++ (fmt_4u entry.count ++
        'x' :: ']' :: ' ' :: (fmt_s (D.GetLogClassName entry.log_class) ++
        ' ' :: '<' :: (fmt_s (D.GetLevelName entry.log_level) ++
        '>' :: ' ' :: (fmt_s loc ++
        ':' :: ' ' :: fmt_s entry.message))))))) := by
  have e0 : "][Repeated ".toList = ']' :: '[' :: "Repeated ".toList := rfl
  have e1 : "x] ".toList = ['x', ']', ' '] := rfl
  have e2 : " <".toList = [' ', '<'] := rfl
  have e3 : "> ".toList = ['>', ' '] := rfl
  have e4 : ": ".toList = [':', ' '] := rfl
  simp only [formatted, h, ne_eq, not_false_eq_true, if_true, e0, e1, e2, e3, e4,
    List.append_assoc, List.cons_append, List.nil_append]

theorem fmt_4u_chars (n : Nat) (c : Char) (hc : c ∈ fmt_4u n) : c = ' ' ∨ isDigitChar c = true := by
  simp only [fmt_4u, List.leftpad, List.mem_append, List.mem_replicate] at hc
  rcases hc with h | h
  · exact Or.inl h.2
  · exact Or.inr (decimal_digits (n + 1) n (Nat.lt_succ_self n) c h)

theorem fmt_06u_chars (n : Nat) (c : Char) (hc : c ∈ fmt_06u n) : isDigitChar c = true := by
  simp only [fmt_06u, List.leftpad, List.mem_append, List.mem_replicate] at hc
  rcases hc with h | h
  · rw [h.2]; decide
  · exact decimal_digits (n + 1) n (Nat.lt_succ_self n) c h

/-- The word `Repeated` is not found inside a number field. -/
theorem Repeated_not_in_number (l : List Char)
    (hl : ∀ c ∈ l, c = ' ' ∨ isDigitChar c = true) : ¬ "Repeated".toList <:+: l := by
  intro h
  have hR : 'R' ∈ l := h.subset (by decide)
  rcases hl 'R' hR with h1 | h1
  · exact absurd h1 (by decide)
  · exact absurd h1 (by decide)

/-! ## The repeat marker -/

/-- C4, as stated, fails: an entry with `count == 0` whose message is `Repeated` is formatted
to a text that contains `Repeated`. -/
theorem FormatLogMessage_Repeated_from_message :
    ({ sampleEntry with message := "Repeated".toList }).count = 0 ∧
    FormatLogMessage sampleDecls { sampleEntry with message := "Repeated".toList } [] 4096 =
      some "[   1.000000] Core <Info> core/a.cpp:f:12: Repeated".toList ∧
    "Repeated".toList <:+: "[   1.000000] Core <Info> core/a.cpp:f:12: Repeated".toList := by
  refine ⟨rfl, by decide, by decide⟩

/-- C4, amended: for an entry with `count == 0` the formatter adds no repeat marker of its own.
The text it writes (into a buffer of `text_len ≥ 1`) contains `Repeated` only when the class
name, the level name, the trimmed location or the message contains it. -/
theorem FormatLogMessage_no_marker (D : Decls) (entry : Entry) (out_text : List Char)
    (text_len : Nat) (hcount : entry.count = 0) (hlen : 1 ≤ text_len) :
    ∃ text, FormatLogMessage D entry out_text text_len = some text ∧
      ("Repeated".toList <:+: text →
        "Repeated".toList <:+: fmt_s (D.GetLogClassName entry.log_class) ∨
        "Repeated".toList <:+: fmt_s (D.GetLevelName entry.log_level) ∨
        "Repeated".toList <:+: trimmed (c_str entry.location) D.root ∨
        "Repeated".toList <:+: fmt_s entry.message) := by
  refine ⟨_, FormatLogMessage_eq D entry out_text text_len, ?_⟩
  intro h
  have hne : ¬ text_len = 0 := by omega
  simp only [snprintf, hne, if_false] at h
  have h0 : "Repeated".toList <:+:
      formatted D entry (trimmed (c_str entry.location) D.root) :=
    h.trans (List.take_prefix _ _).isInfix
  rw [formatted_zero D entry _ hcount, fmt_s_trimmed] at h0
  have h1 := infix_cons_skip _ _ _ (by decide) h0
  rcases infix_split _ _ _ _ (by decide) h1 with h2 | h2
  · exact absurd h2 (Repeated_not_in_number _ (fmt_4u_chars _))
  rcases infix_split _ _ _ _ (by decide) h2 with h3 | h3
  · exact absurd h3 (Repeated_not_in_number _ (fun c hc => Or.inr (fmt_06u_chars _ c hc)))
  have h4 := infix_cons_skip _ _ _ (by decide) h3
  rcases infix_split _ _ _ _ (by decide) h4 with h5 | h5
  · exact Or.inl h5
  have h6 := infix_cons_skip _ _ _ (by decide) h5
  rcases infix_split _ _ _ _ (by decide) h6 with h7 | h7
  · exact Or.inr (Or.inl h7)
  have h8 := infix_cons_skip _ _ _ (by decide) h7
  rcases infix_split _ _ _ _ (by decide) h8 with h9 | h9
  · exact Or.inr (Or.inr (Or.inl h9))
  have h10 := infix_cons_skip _ _ _ (by decide) h9
  exact Or.inr (Or.inr (Or.inr h10))

/-- The amended C4 at the sample entry and a buffer of 4096 bytes. -/
theorem FormatLogMessage_no_marker_witness :
    sampleEntry.count = 0 ∧ 1 ≤ 4096 ∧
    ∃ text, FormatLogMessage sampleDecls sampleEntry [] 4096 = some text ∧
      ("Repeated".toList <:+: text →
        "Repeated".toList <:+: fmt_s (sampleDecls.GetLogClassName sampleEntry.log_class) ∨
        "Repeated".toList <:+: fmt_s (sampleDecls.GetLevelName sampleEntry.log_level) ∨
        "Repeated".toList <:+: trimmed (c_str sampleEntry.location) sampleDecls.root ∨
        "Repeated".toList <:+: fmt_s sampleEntry.message) :=
  ⟨rfl, by decide, FormatLogMessage_no_marker sampleDecls sampleEntry [] 4096 rfl (by decide)⟩

/-- The field `%4u` needs no padding exactly from 1000 on. -/
theorem padding_nil_iff (n : Nat) :
    List.replicate (4 - (decimal n).length) ' ' = [] ↔ 1000 ≤ n := by
  constructor
  · intro h
    by_contra hlt
    have hl : (decimal n).length ≤ 2 + 1 := decimal_length_le 2 n (by norm_num; omega)
    have hlen := congrArg List.length h
    simp only [List.length_replicate, List.length_nil] at hlen
    omega
  · intro h
    have hl : 3 + 1 ≤ (decimal n).length := decimal_length_ge 3 n (by simpa using h)
    have h0 : 4 - (decimal n).length = 0 := by omega
    rw [h0]
    rfl

theorem snprintf_fits (out_text text : List Char) (text_len : Nat) (h : text.length < text_len) :
    snprintf out_text text_len text = text := by
  have hne : ¬ text_len = 0 := by omega
  simp only [snprintf, hne, if_false]
  exact List.take_of_length_le (by omega)

/-- C5, as stated, fails: the entry with `count == 2` is formatted to a text that fits the
buffer and does not contain `Repeated 2x`; the count is printed in a field of four
characters. -/
theorem FormatLogMessage_marker_padded :
    0 < ({ sampleEntry with count := 2 }).count ∧
    FormatLogMessage sampleDecls { sampleEntry with count := 2 } [] 4096 =
      some "[   1.000000][Repeated    2x] Core <Info> core/a.cpp:f:12: boot complete".toList ∧
    specMarker 2 = "Repeated 2x".toList ∧
    ¬ specMarker 2 <:+:
      "[   1.000000][Repeated    2x] Core <Info> core/a.cpp:f:12: boot complete".toList := by
  refine ⟨by decide, by decide, by decide, by decide⟩

/-- C5, amended: for an entry with `count = N > 0` whose text fits the buffer, the formatter
writes `[secs.frac][Repeated NNNNx] class <level> location: message`, where `NNNN` is the
decimal rendering of exactly `N`, right-aligned with spaces in a field of at least four
characters; the bracketed marker stands between the timestamp bracket and the class name, and
the number field is the decimal rendering alone, so that the marker reads `Repeated <N>x`,
exactly when `N ≥ 1000`. -/
theorem FormatLogMessage_marker (D : Decls) (entry : Entry) (out_text : List Char)
    (text_len : Nat) (hcount : 0 < entry.count)
    (hfits : (rendering D entry).length < text_len) :
    FormatLogMessage D entry out_text text_len =
      some ('[' :: (fmt_4u (time_seconds entry.timestamp) ++
        '.' :: (fmt_06u (time_fractional entry.timestamp) ++
        ']' :: '[' :: ("Repeated ".toList ++
        ((List.replicate (4 - (decimal entry.count).length) ' ' ++ decimal entry.count) ++
        'x' :: ']' :: ' ' :: (fmt_s (D.GetLogClassName entry.log_class) ++
        ' ' :: '<' :: (fmt_s (D.GetLevelName entry.log_level) ++
        '>' :: ' ' :: (trimmed (c_str entry.location) D.root ++
        ':' :: ' ' :: fmt_s entry.message)))))))) ∧
    (List.replicate (4 - (decimal entry.count).length) ' ' = [] ↔ 1000 ≤ entry.count) := by
  constructor
  · unfold rendering at hfits
    rw [FormatLogMessage_eq, snprintf_fits _ _ _ hfits,
      formatted_repeat D entry _ (by omega), fmt_s_trimmed]
    rfl
  · exact padding_nil_iff entry.count

/-- The amended C5 at the sample entry repeated twice and a buffer of 4096 bytes. -/
theorem FormatLogMessage_marker_witness :
    0 < ({ sampleEntry with count := 2 }).count ∧
    (rendering sampleDecls { sampleEntry with count := 2 }).length < 4096 ∧
    FormatLogMessage sampleDecls { sampleEntry with count := 2 } [] 4096 =
      some ('[' :: (fmt_4u (time_seconds ({ sampleEntry with count := 2 }).timestamp) ++
        '.' :: (fmt_06u (time_fractional ({ sampleEntry with count := 2 }).timestamp) ++
        ']' :: '[' :: ("Repeated ".toList ++
        ((List.replicate (4 - (decimal ({ sampleEntry with count := 2 }).count).length) ' ' ++
          decimal ({ sampleEntry with count := 2 }).count) ++
        'x' :: ']' :: ' ' ::
        (fmt_s (sampleDecls.GetLogClassName ({ sampleEntry with count := 2 }).log_class) ++
        ' ' :: '<' ::
        (fmt_s (sampleDecls.GetLevelName ({ sampleEntry with count := 2 }).log_level) ++
        '>' :: ' ' ::
        (trimmed (c_str ({ sampleEntry with count := 2 }).location) sampleDecls.root ++
        ':' :: ' ' :: fmt_s ({ sampleEntry with count := 2 }).message)))))))) :=
  ⟨by decide, by decide,
    (FormatLogMessage_marker sampleDecls { sampleEntry with count := 2 } [] 4096 (by decide)
      (by decide)).1⟩

/-! ## The layout of the line -/

/-- C6, as stated, fails: the sample entry is formatted with the class name bare, the level
name in angle brackets and the location cut after its `src` component, not as the line of the
spec. -/
theorem FormatLogMessage_not_specLine :
    sampleEntry.count = 0 ∧
    FormatLogMessage sampleDecls sampleEntry [] 4096 =
      some "[   1.000000] Core <Info> core/a.cpp:f:12: boot complete".toList ∧
    specLine sampleDecls sampleEntry =
      "[   1.000000][Core] Info /build/src/core/a.cpp:f:12: boot complete".toList ∧
    FormatLogMessage sampleDecls sampleEntry [] 4096 ≠ some (specLine sampleDecls sampleEntry) := by
  refine ⟨rfl, by decide, by decide, by decide⟩

/-- C6, amended: for an entry with `count == 0` whose text fits the buffer, the formatter
writes exactly `[secs.frac6] CategoryName <SeverityName> location: message`: the timestamp
bracket, a space, the class name bare, the level name in angle brackets, then the location as
`TrimSourcePath` returns it for the default root, a colon and the message. -/
theorem FormatLogMessage_layout (D : Decls) (entry : Entry) (out_text : List Char)
    (text_len : Nat) (hcount : entry.count = 0)
    (hfits : (rendering D entry).length < text_len) :
    FormatLogMessage D entry out_text text_len =
      some ("[".toList ++ fmt_4u (time_seconds entry.timestamp) ++ ".".toList ++
        fmt_06u (time_fractional entry.timestamp) ++ "] ".toList ++
        fmt_s (D.GetLogClassName entry.log_class) ++ " <".toList ++
        fmt_s (D.GetLevelName entry.log_level) ++ "> ".toList ++
        trimmed (c_str entry.location) D.root ++ ": ".toList ++ fmt_s entry.message) := by
  unfold rendering at hfits
  rw [FormatLogMessage_eq, snprintf_fits _ _ _ hfits, formatted_zero D entry _ hcount,
    fmt_s_trimmed]
  have e0 : "[".toList = ['['] := rfl
  have e1 : "] ".toList = [']', ' '] := rfl
  have e2 : " <".toList = [' ', '<'] := rfl
  have e3 : "> ".toList = ['>', ' '] := rfl
  have e4 : ": ".toList = [':', ' '] := rfl
  have e5 : ".".toList = ['.'] := rfl
  simp only [e0, e1, e2, e3, e4, e5, List.append_assoc, List.cons_append, List.nil_append]

/-- The amended C6 at the sample entry and a buffer of 4096 bytes. -/
theorem FormatLogMessage_layout_witness :
    sampleEntry.count = 0 ∧
    (rendering sampleDecls sampleEntry).length < 4096 ∧
    FormatLogMessage sampleDecls sampleEntry [] 4096 =
      some ("[".toList ++ fmt_4u (time_seconds sampleEntry.timestamp) ++ ".".toList ++
        fmt_06u (time_fractional sampleEntry.timestamp) ++ "] ".toList ++
        fmt_s (sampleDecls.GetLogClassName sampleEntry.log_class) ++ " <".toList ++
        fmt_s (sampleDecls.GetLevelName sampleEntry.log_level) ++ "> ".toList ++
        trimmed (c_str sampleEntry.location) sampleDecls.root ++ ": ".toList ++
        fmt_s sampleEntry.message) :=
  ⟨rfl, by decide, FormatLogMessage_layout sampleDecls sampleEntry [] 4096 rfl (by decide)⟩

/-! ## The timestamp field -/

theorem time_seconds_nonneg (t : Int) (h0 : 0 ≤ t) (h1 : t / 1000000 < 2 ^ 32) :
    time_seconds t = (t / 1000000).toNat := by
  unfold time_seconds toUInt
  rw [Int.tdiv_eq_ediv h0 (by decide)]
  congr 1
  apply Int.emod_eq_of_lt
  · omega
  · exact h1

theorem time_fractional_nonneg (t : Int) (h0 : 0 ≤ t) :
    time_fractional t = (t % 1000000).toNat := by
  unfold time_fractional toUInt
  rw [Int.tmod_eq_emod h0 (by decide)]
  congr 1
  apply Int.emod_eq_of_lt
  · omega
  · omega

/-- Reading the digits of a number gives the number back. -/
theorem foldl_decimal : ∀ (k n : Nat), n < k →
    (decimal n).foldl (fun acc c => 10 * acc + (c.toNat - '0'.toNat)) 0 = n := by
  intro k
  induction k with
  | zero => intro n h; omega
  | succ k ih =>
    intro n hn
    rw [decimal_unfold]
    by_cases h : n < 10
    · simp only [h, if_true, List.foldl_cons, List.foldl_nil]
      rw [digitChar_value n h]
      omega
    · simp only [h, if_false, List.foldl_append, List.foldl_cons, List.foldl_nil]
      rw [ih (n / 10) (by omega), digitChar_value _ (Nat.mod_lt _ (by decide))]
      omega

theorem dropWhile_space_digits (l : List Char) (h : ∀ c ∈ l, isDigitChar c = true) :
    l.dropWhile (fun c => c == ' ') = l := by
  cases l with
  | nil => rfl
  | cons a l1 =>
    have ha : isDigitChar a = true := h a (List.mem_cons_self _ _)
    have hne : (a == ' ') = false := by
      rw [beq_eq_false_iff_ne]
      intro hs
      rw [hs] at ha
      exact absurd ha (by decide)
    simp [List.dropWhile_cons, hne]

theorem readNat_fmt_4u (n : Nat) : readNat (fmt_4u n) = n := by
  have hd : ∀ c ∈ decimal n, isDigitChar c = true := decimal_digits (n + 1) n (Nat.lt_succ_self n)
  have hdrop : ∀ k : Nat, (List.replicate k ' ' ++ decimal n).dropWhile (fun c => c == ' ') =
      decimal n := by
    intro k
    induction k with
    | zero => simpa using dropWhile_space_digits _ hd
    | succ k ih => simpa [List.replicate_succ, List.dropWhile_cons] using ih
  unfold readNat fmt_4u List.leftpad
  rw [hdrop]
  exact foldl_decimal (n + 1) n (Nat.lt_succ_self n)

theorem readNat_fmt_06u (n : Nat) : readNat (fmt_06u n) = n := by
  have hall : ∀ c ∈ fmt_06u n, isDigitChar c = true := fmt_06u_chars n
  unfold readNat
  rw [dropWhile_space_digits _ hall]
  unfold fmt_06u List.leftpad
  rw [List.foldl_append]
  have hz : ∀ k : Nat, (List.replicate k '0').foldl
      (fun acc c => 10 * acc + (c.toNat - '0'.toNat)) 0 = 0 := by
    intro k
    induction k with
    | zero => rfl
    | succ k ih => simpa [List.replicate_succ] using ih
  rw [hz]
  exact foldl_decimal (n + 1) n (Nat.lt_succ_self n)

/-- C7, as stated, fails: twelve seconds and 34 microseconds after the start the seconds field
is `  12`, padded with spaces, where the claim has the zero-padded `0012`. -/
theorem timestamp_field_space_padded :
    (0 : Int) ≤ 12000034 ∧ (12000034 : Int) / 1000000 < 2 ^ 32 ∧
    time_seconds 12000034 = 12 ∧
    fmt_4u (time_seconds 12000034) = "  12".toList ∧
    specSecs (time_seconds 12000034) = "0012".toList ∧
    fmt_4u (time_seconds 12000034) ≠ specSecs (time_seconds 12000034) ∧
    FormatLogMessage sampleDecls { sampleEntry with timestamp := 12000034 } [] 4096 =
      some "[  12.000034] Core <Info> core/a.cpp:f:12: boot complete".toList := by
  refine ⟨by decide, by decide, by decide, by decide, by decide, by decide, by decide⟩

/-- C7, amended: for a timestamp `t ≥ 0` with `t / 1000000 < 2 ^ 32`, the line starts with
`[`, the seconds field, `.`, the microseconds field and `]`, where the seconds are
`t / 1000000` in decimal, right-aligned with spaces (not zeros) to at least four characters
and never truncated, and the microseconds are `t % 1000000` in decimal, padded with zeros to
exactly six digits; reading the two fields back as numbers gives
`secs * 1000000 + frac = t`. -/
theorem timestamp_field (t : Int) (h0 : 0 ≤ t) (h1 : t / 1000000 < 2 ^ 32) :
    time_seconds t = (t / 1000000).toNat ∧
    time_fractional t = (t % 1000000).toNat ∧
    fmt_4u (time_seconds t) =
      List.replicate (4 - (decimal (time_seconds t)).length) ' ' ++ decimal (time_seconds t) ∧
    4 ≤ (fmt_4u (time_seconds t)).length ∧
    fmt_06u (time_fractional t) =
      List.replicate (6 - (decimal (time_fractional t)).length) '0' ++
        decimal (time_fractional t) ∧
    (fmt_06u (time_fractional t)).length = 6 ∧
    (readNat (fmt_4u (time_seconds t)) : Int) * 1000000 +
      (readNat (fmt_06u (time_fractional t)) : Int) = t ∧
    (∀ (D : Decls) (entry : Entry) (loc : List Char), entry.timestamp = t →
      ∃ rest, formatted D entry loc =
        '[' :: (fmt_4u (time_seconds t) ++ '.' :: (fmt_06u (time_fractional t) ++ ']' :: rest))) := by
  have hs := time_seconds_nonneg t h0 h1
  have hf := time_fractional_nonneg t h0
  have hflt : time_fractional t < 10 ^ (5 + 1) := by
    rw [hf]
    have : t % 1000000 < 1000000 := Int.emod_lt_of_pos t (by decide)
    have h2 : 0 ≤ t % 1000000 := Int.emod_nonneg t (by decide)
    norm_num
    omega
  have hlen := decimal_length_le 5 (time_fractional t) hflt
  refine ⟨hs, hf, rfl, ?_, rfl, ?_, ?_, ?_⟩
  · simp only [fmt_4u, List.leftpad, List.length_append, List.length_replicate]
    omega
  · simp only [fmt_06u, List.leftpad, List.length_append, List.length_replicate]
    omega
  · rw [readNat_fmt_4u, readNat_fmt_06u, hs, hf]
    have h2 : 0 ≤ t % 1000000 := Int.emod_nonneg t (by decide)
    have h3 : 0 ≤ t / 1000000 := Int.ediv_nonneg h0 (by decide)
    rw [Int.toNat_of_nonneg h2, Int.toNat_of_nonneg h3]
    omega
  · intro D entry loc ht
    by_cases hc : entry.count = 0
    · rw [formatted_zero D entry loc hc, ht]
      exact ⟨_, rfl⟩
    · rw [formatted_repeat D entry loc hc, ht]
      exact ⟨_, rfl⟩

/-- The amended C7 at the timestamp of 12 s and 34 µs. -/
theorem timestamp_field_witness :
    (0 : Int) ≤ 12000034 ∧ (12000034 : Int) / 1000000 < 2 ^ 32 ∧
    (readNat (fmt_4u (time_seconds 12000034)) : Int) * 1000000 +
      (readNat (fmt_06u (time_fractional 12000034)) : Int) = 12000034 ∧
    (fmt_06u (time_fractional 12000034)).length = 6 :=
  ⟨by decide, by decide,
    (timestamp_field 12000034 (by decide) (by decide)).2.2.2.2.2.2.1,
    (timestamp_field 12000034 (by decide) (by decide)).2.2.2.2.2.1⟩

/-! ## Truncation to the buffer -/

theorem formatted_no_NUL (D : Decls) (entry : Entry) (location root : List Char) :
    NUL ∉ formatted D entry (trimmed (c_str location) root) := by
  have hd : ∀ n : Nat, NUL ∉ decimal n := by
    intro n h
    exact absurd (decimal_digits (n + 1) n (Nat.lt_succ_self n) NUL h) (by decide)
  have h4 : ∀ n : Nat, NUL ∉ fmt_4u n := by
    intro n h
    rcases fmt_4u_chars n NUL h with h1 | h1
    · exact absurd h1 (by decide)
    · exact absurd h1 (by decide)
  have h6 : ∀ n : Nat, NUL ∉ fmt_06u n := by
    intro n h
    exact absurd (fmt_06u_chars n NUL h) (by decide)
  have hs : ∀ s : List Char, NUL ∉ fmt_s s := c_str_no_NUL
  have hR : NUL ∉ "Repeated ".toList := by decide
  have hc : ∀ c : Char, c ∈ "[.] <>:x".toList → NUL ≠ c := by decide
  by_cases hcount : entry.count = 0
  · rw [formatted_zero D entry _ hcount]
    simp only [List.mem_cons, List.mem_append, not_or]
    refine ⟨hc _ (by decide), h4 _, hc _ (by decide), h6 _, hc _ (by decide), hc _ (by decide),
      hs _, hc _ (by decide), hc _ (by decide), hs _, hc _ (by decide), hc _ (by decide),
      hs _, hc _ (by decide), hc _ (by decide), hs _⟩
  · rw [formatted_repeat D entry _ hcount]
    simp only [List.mem_cons, List.mem_append, not_or]
    refine ⟨hc _ (by decide), h4 _, hc _ (by decide), h6 _, hc _ (by decide), hc _ (by decide),
      hR, h4 _, hc _ (by decide), hc _ (by decide), hc _ (by decide),
      hs _, hc _ (by decide), hc _ (by decide), hs _, hc _ (by decide), hc _ (by decide),
      hs _, hc _ (by decide), hc _ (by decide), hs _⟩

theorem take_min_length (l : List Char) (k : Nat) : l.take (min l.length k) = l.take k := by
  by_cases h : l.length ≤ k
  · rw [Nat.min_eq_left h, List.take_of_length_le h, List.take_of_length_le (Nat.le_refl _)]
  · rw [Nat.min_eq_right (by omega)]

/-- C8: with `L` the length of the untruncated rendering, `FormatLogMessage` with a buffer of
`text_len ≥ 1` leaves in the buffer exactly the first `min L (text_len - 1)` characters of the
rendering, which with the terminating NUL fit the buffer; the rendering holds no NUL, so the
string ends only there; and `PrintMessage` writes the first `min L 4095` characters and one
newline and returns `min L 4095`. -/
theorem FormatLogMessage_truncates (D : Decls) (entry : Entry) (out_text : List Char)
    (text_len : Nat) (hlen : 1 ≤ text_len) :
    FormatLogMessage D entry out_text text_len =
      some ((rendering D entry).take (min (rendering D entry).length (text_len - 1))) ∧
    ((rendering D entry).take (min (rendering D entry).length (text_len - 1))).length =
      min (rendering D entry).length (text_len - 1) ∧
    min (rendering D entry).length (text_len - 1) + 1 ≤ text_len ∧
    NUL ∉ rendering D entry ∧
    PrintMessage D entry =
      some ((rendering D entry).take (min (rendering D entry).length 4095) ++ ['\n'],
        min (rendering D entry).length 4095) := by
  have hne : ¬ text_len = 0 := by omega
  refine ⟨?_, ?_, ?_, formatted_no_NUL D entry _ _, ?_⟩
  · rw [FormatLogMessage_eq, take_min_length]
    simp only [snprintf, hne, if_false, rendering]
  · rw [List.length_take]
    omega
  · have := Nat.min_le_right (rendering D entry).length (text_len - 1)
    omega
  · rw [PrintMessage_eq, take_min_length]
    rfl

/-- The statement of C8 at the sample entry and a buffer of ten bytes: nine characters are
kept. -/
theorem FormatLogMessage_truncates_witness :
    1 ≤ 10 ∧
    FormatLogMessage sampleDecls sampleEntry [] 10 = some "[   1.000".toList ∧
    min (rendering sampleDecls sampleEntry).length (10 - 1) = 9 ∧
    PrintMessage sampleDecls sampleEntry =
      some ((rendering sampleDecls sampleEntry).take
        (min (rendering sampleDecls sampleEntry).length 4095) ++ ['\n'],
        min (rendering sampleDecls sampleEntry).length 4095) :=
  ⟨by decide, by decide, by decide,
    (FormatLogMessage_truncates sampleDecls sampleEntry [] 10 (by decide)).2.2.2.2⟩

/-! ## The coloured renderer -/

theorem PrintMessage_rendering (D : Decls) (entry : Entry) :
    PrintMessage D entry =
      some ((rendering D entry).take 4095 ++ ['\n'], min (rendering D entry).length 4095) :=
  PrintMessage_eq D entry

theorem color_some (level : Level) (h : level ≠ Level.Count) : ∃ c, color level = some c := by
  cases level
  case Count => exact absurd rfl h
  all_goals exact ⟨_, rfl⟩

/-- The step of the renderer, when the level is a severity: the erase sequence, the colour, the
line with its newline, the reset. -/
theorem PrintColoredMessage_eq (D : Decls) (st : RenderState) (ioctl : Option Nat)
    (entry : Entry) (c : List Char) (hc : color entry.log_level = some c) :
    PrintColoredMessage D st ioctl entry =
      some ({ last_msg_size := toShort ((min (rendering D entry).length 4095 : Nat) : Int),
              last_cols := match ioctl with
                | some ws_col => toShort ((ws_col % 2 ^ 16 : Nat) : Int)
                | none => st.last_cols },
        erase st entry ++ c ++ ((rendering D entry).take 4095 ++ ['\n']) ++ ESC ++
          "[0m".toList) := by
  simp only [PrintColoredMessage, hc, PrintMessage_rendering]

/-- For a width `w ≥ 0` and `c > 0` columns the line count is the ceiling of `w / c`. -/
theorem last_msg_lines_ceil (w c : Int) (hw : 0 ≤ w) (hc : 0 < c) :
    0 ≤ last_msg_lines w c ∧ w ≤ last_msg_lines w c * c ∧
      last_msg_lines w c * c < w + c ∧ (0 < w → 1 ≤ last_msg_lines w c) := by
  have hdiv : Int.tdiv w c = w / c := Int.tdiv_eq_ediv hw (le_of_lt hc)
  have hmod : Int.tmod w c = w % c := Int.tmod_eq_emod hw (le_of_lt hc)
  have hr0 : 0 ≤ w % c := Int.emod_nonneg w (ne_of_gt hc)
  have hr1 : w % c < c := Int.emod_lt_of_pos w hc
  have hq0 : 0 ≤ w / c := Int.ediv_nonneg hw (le_of_lt hc)
  have hsum : c * (w / c) + w % c = w := Int.ediv_add_emod w c
  unfold last_msg_lines
  rw [hdiv, hmod]
  by_cases hr : w % c = 0
  · simp only [hr, ne_eq, not_true_eq_false, if_false]
    rw [hr] at hsum
    have hmul : w / c * c = w := by rw [mul_comm]; omega
    refine ⟨hq0, by omega, by omega, ?_⟩
    intro hpos
    by_contra hlt
    have hz : w / c = 0 := by omega
    rw [hz] at hmul
    omega
  · simp only [hr, ne_eq, not_false_eq_true, if_true]
    have hmul : (w / c + 1) * c = c * (w / c) + c := by ring
    refine ⟨by omega, by omega, by omega, fun _ => by omega⟩

/-- C9: in the POSIX variant, with a recorded width `w = last_msg_size ≥ 0` and a recorded
column count `c = last_cols > 0`, rendering a repeat entry (`count != 0`, the level being one
of the severities) first writes `ESC [ n A` where `n` is the ceiling of `w / c`, that is the
number with `w ≤ n * c < w + c`, and `n ≥ 1` when `w > 0`; then a backspace and `ESC [J`;
then the colour, the line with its newline, and the reset. -/
theorem PrintColoredMessage_cursor_up (D : Decls) (st : RenderState) (ioctl : Option Nat)
    (entry : Entry) (hcount : entry.count ≠ 0) (hw : 0 ≤ st.last_msg_size)
    (hc : 0 < st.last_cols) (hlevel : entry.log_level ≠ Level.Count) :
    ∃ (n : Nat) (c : List Char) (st1 : RenderState),
      st.last_msg_size ≤ (n : Int) * st.last_cols ∧
      (n : Int) * st.last_cols < st.last_msg_size + st.last_cols ∧
      (0 < st.last_msg_size → 1 ≤ n) ∧
      color entry.log_level = some c ∧
      PrintColoredMessage D st ioctl entry =
        some (st1, ESC ++ "[".toList ++ decimal n ++ "A".toList ++ [BS] ++ ESC ++ "[J".toList ++
          c ++ ((rendering D entry).take 4095 ++ ['\n']) ++ ESC ++ "[0m".toList) := by
  obtain ⟨c, hcol⟩ := color_some entry.log_level hlevel
  obtain ⟨h0, h1, h2, h3⟩ := last_msg_lines_ceil st.last_msg_size st.last_cols hw hc
  have hn : ((last_msg_lines st.last_msg_size st.last_cols).toNat : Int) =
      last_msg_lines st.last_msg_size st.last_cols := Int.toNat_of_nonneg h0
  refine ⟨(last_msg_lines st.last_msg_size st.last_cols).toNat, c,
    { last_msg_size := toShort ((min (rendering D entry).length 4095 : Nat) : Int),
      last_cols := match ioctl with
        | some ws_col => toShort ((ws_col % 2 ^ 16 : Nat) : Int)
        | none => st.last_cols }, ?_, ?_, ?_, hcol, ?_⟩
  · rw [hn]; exact h1
  · rw [hn]; exact h2
  · intro hpos
    have := h3 hpos
    omega
  · rw [PrintColoredMessage_eq D st ioctl entry c hcol]
    have hcond : entry.count ≠ 0 ∧ st.last_cols ≠ 0 := ⟨hcount, ne_of_gt hc⟩
    have hneg : ¬ last_msg_lines st.last_msg_size st.last_cols < 0 := by omega
    unfold erase
    rw [if_pos hcond]
    simp only [to_string, hneg, if_false]
    rfl

/-- The statement of C9 for a line of 57 characters on a terminal recorded with 10 columns:
the hypotheses hold and the cursor goes up by the `n` of the theorem. -/
theorem PrintColoredMessage_cursor_up_witness :
    ({ sampleEntry with count := 2 }).count ≠ 0 ∧
    (0 : Int) ≤ ({ last_msg_size := 57, last_cols := 10 } : RenderState).last_msg_size ∧
    (0 : Int) < ({ last_msg_size := 57, last_cols := 10 } : RenderState).last_cols ∧
    ({ sampleEntry with count := 2 }).log_level ≠ Level.Count ∧
    ∃ (n : Nat) (c : List Char) (st1 : RenderState),
      ({ last_msg_size := 57, last_cols := 10 } : RenderState).last_msg_size ≤
        (n : Int) * ({ last_msg_size := 57, last_cols := 10 } : RenderState).last_cols ∧
      (n : Int) * ({ last_msg_size := 57, last_cols := 10 } : RenderState).last_cols <
        ({ last_msg_size := 57, last_cols := 10 } : RenderState).last_msg_size +
          ({ last_msg_size := 57, last_cols := 10 } : RenderState).last_cols ∧
      (0 < ({ last_msg_size := 57, last_cols := 10 } : RenderState).last_msg_size → 1 ≤ n) ∧
      color ({ sampleEntry with count := 2 }).log_level = some c ∧
      PrintColoredMessage sampleDecls { last_msg_size := 57, last_cols := 10 } (some 80)
          { sampleEntry with count := 2 } =
        some (st1, ESC ++ "[".toList ++ decimal n ++ "A".toList ++ [BS] ++ ESC ++ "[J".toList ++
          c ++ ((rendering sampleDecls { sampleEntry with count := 2 }).take 4095 ++ ['\n']) ++
          ESC ++ "[0m".toList) :=
  ⟨by decide, by decide, by decide, by decide,
    PrintColoredMessage_cursor_up sampleDecls { last_msg_size := 57, last_cols := 10 } (some 80)
      { sampleEntry with count := 2 } (by decide) (by decide) (by decide) (by decide)⟩

/-- C10: from the initial state, with every width query failing, rendering an entry (the level
being one of the severities) with count 0 and then with count 1 writes two complete lines: each
call writes exactly the colour code, the text `FormatLogMessage` leaves in the 4096-byte
buffer, a newline and the reset code, with no cursor-up or erase sequence before them, and
the recorded column count stays 0. -/
theorem PrintColoredMessage_no_terminal (D : Decls) (entry : Entry)
    (hlevel : entry.log_level ≠ Level.Count) :
    ∃ (c text0 text1 : List Char) (st1 st2 : RenderState),
      color entry.log_level = some c ∧
      FormatLogMessage D { entry with count := 0 } [] 4096 = some text0 ∧
      FormatLogMessage D { entry with count := 1 } [] 4096 = some text1 ∧
      PrintColoredMessage D RenderState.init none { entry with count := 0 } =
        some (st1, c ++ text0 ++ ['\n'] ++ ESC ++ "[0m".toList) ∧
      PrintColoredMessage D st1 none { entry with count := 1 } =
        some (st2, c ++ text1 ++ ['\n'] ++ ESC ++ "[0m".toList) ∧
      st1.last_cols = 0 ∧ st2.last_cols = 0 := by
  obtain ⟨c, hcol⟩ := color_some entry.log_level hlevel
  have hf : ∀ e : Entry, FormatLogMessage D e [] 4096 = some ((rendering D e).take 4095) := by
    intro e
    rw [FormatLogMessage_eq]
    rfl
  refine ⟨c, _, _,
    { last_msg_size :=
        toShort ((min (rendering D { entry with count := 0 }).length 4095 : Nat) : Int),
      last_cols := 0 },
    { last_msg_size :=
        toShort ((min (rendering D { entry with count := 1 }).length 4095 : Nat) : Int),
      last_cols := 0 }, hcol, hf _, hf _, ?_, ?_, rfl, rfl⟩
  · rw [PrintColoredMessage_eq D _ none { entry with count := 0 } c hcol]
    simp [erase, RenderState.init]
  · rw [PrintColoredMessage_eq D _ none { entry with count := 1 } c hcol]
    simp [erase]

/-- The statement of C10 at the sample entry. -/
theorem PrintColoredMessage_no_terminal_witness :
    sampleEntry.log_level ≠ Level.Count ∧
    ∃ (c text0 text1 : List Char) (st1 st2 : RenderState),
      color sampleEntry.log_level = some c ∧
      FormatLogMessage sampleDecls { sampleEntry with count := 0 } [] 4096 = some text0 ∧
      FormatLogMessage sampleDecls { sampleEntry with count := 1 } [] 4096 = some text1 ∧
      PrintColoredMessage sampleDecls RenderState.init none { sampleEntry with count := 0 } =
        some (st1, c ++ text0 ++ ['\n'] ++ ESC ++ "[0m".toList) ∧
      PrintColoredMessage sampleDecls st1 none { sampleEntry with count := 1 } =
        some (st2, c ++ text1 ++ ['\n'] ++ ESC ++ "[0m".toList) ∧
      st1.last_cols = 0 ∧ st2.last_cols = 0 :=
  ⟨by decide, PrintColoredMessage_no_terminal sampleDecls sampleEntry (by decide)⟩

/-! ## The recorded column count -/

theorem toShort_small (x : Int) (h0 : 0 ≤ x) (h1 : x ≤ 32767) : toShort x = x := by
  unfold toShort
  norm_num
  omega

/-- The erase block of a repeat entry, for a recorded width `w ≥ 0` and `c > 0` columns. -/
theorem erase_repeat (st : RenderState) (entry : Entry) (hcount : entry.count ≠ 0)
    (hw : 0 ≤ st.last_msg_size) (hc : 0 < st.last_cols) :
    erase st entry = eraseSequence (last_msg_lines st.last_msg_size st.last_cols).toNat := by
  have h0 := (last_msg_lines_ceil st.last_msg_size st.last_cols hw hc).1
  have hcond : entry.count ≠ 0 ∧ st.last_cols ≠ 0 := ⟨hcount, ne_of_gt hc⟩
  have hneg : ¬ last_msg_lines st.last_msg_size st.last_cols < 0 := by omega
  unfold erase
  rw [if_pos hcond]
  simp only [to_string, hneg, if_false]
  rfl

/-- Without a repeat or without a recorded column count nothing is erased. -/
theorem erase_nil (st : RenderState) (entry : Entry)
    (h : entry.count = 0 ∨ st.last_cols = 0) : erase st entry = [] := by
  unfold erase
  rw [if_neg]
  intro hcond
  rcases h with h | h
  · exact hcond.1 h
  · exact hcond.2 h

theorem level_ne_Count (level : Level)
    (h : level ∈ [Level.Trace, Level.Debug, Level.Info, Level.Warning, Level.Error,
      Level.Critical]) : level ≠ Level.Count := by
  intro hc
  rw [hc] at h
  exact absurd h (by decide)

/-- C11: the code at the failing input. After a call whose width query reported 80 columns
and a call whose query failed, the recorded column count is still 80, and a repeat entry whose
own query fails too is rendered with the cursor-up and erase sequence, where the claim has no
such sequence after a failed query. -/
theorem PrintColoredMessage_stale_width :
    PrintColoredMessages sampleDecls RenderState.init
        [(some 80, sampleEntry), (none, sampleEntry)] =
      some ({ last_msg_size := 56, last_cols := 80 },
        [specColour Level.Info ++ (rendering sampleDecls sampleEntry ++ ['\n']) ++ ESC ++
            "[0m".toList,
          specColour Level.Info ++ (rendering sampleDecls sampleEntry ++ ['\n']) ++ ESC ++
            "[0m".toList]) ∧
    ({ sampleEntry with count := 1 }).count ≠ 0 ∧
    PrintColoredMessage sampleDecls { last_msg_size := 56, last_cols := 80 } none
        { sampleEntry with count := 1 } =
      some ({ last_msg_size := 72, last_cols := 80 },
        eraseSequence 1 ++ specColour Level.Info ++
          (rendering sampleDecls { sampleEntry with count := 1 } ++ ['\n']) ++ ESC ++
          "[0m".toList) := by
  refine ⟨by decide, by decide, by decide⟩

/-- C12, as stated, fails: with 100 characters and 40 columns recorded, a repeat entry whose
own query reports 120 columns moves the cursor up by 3 rows, the ceiling of 100 / 40, not by
the 1 row that 100 / 120 gives; the 120 columns are only recorded for the next call. -/
theorem PrintColoredMessage_rows_not_from_query :
    last_msg_lines 100 40 = 3 ∧ last_msg_lines 100 120 = 1 ∧
    PrintColoredMessage sampleDecls { last_msg_size := 100, last_cols := 40 } (some 120)
        { sampleEntry with count := 1 } =
      some ({ last_msg_size := 72, last_cols := 120 },
        eraseSequence 3 ++ specColour Level.Info ++
          (rendering sampleDecls { sampleEntry with count := 1 } ++ ['\n']) ++ ESC ++
          "[0m".toList) := by
  refine ⟨by decide, by decide, by decide⟩

/-- C12, amended: when a repeat entry is rendered, the rows of the cursor-up sequence are
computed from the column count recorded when the previous line was written: for a recorded
width `w ≥ 0`, a recorded column count `c > 0` and a successful query result `q` in
`1 .. 32767`, the row count `n` is the ceiling of `w / c` (`w ≤ n * c < w + c`), whatever `q`
is, and `q` is recorded as the column count for the next call. -/
theorem PrintColoredMessage_rows_recorded (D : Decls) (st : RenderState) (q : Nat)
    (entry : Entry) (hcount : entry.count ≠ 0) (hw : 0 ≤ st.last_msg_size)
    (hc : 0 < st.last_cols) (hq0 : 0 < q) (hq1 : q ≤ 32767)
    (hlevel : entry.log_level ∈ [Level.Trace, Level.Debug, Level.Info, Level.Warning,
      Level.Error, Level.Critical]) :
    ∃ (n : Nat) (c : List Char) (st1 : RenderState),
      st.last_msg_size ≤ (n : Int) * st.last_cols ∧
      (n : Int) * st.last_cols < st.last_msg_size + st.last_cols ∧
      color entry.log_level = some c ∧
      PrintColoredMessage D st (some q) entry =
        some (st1, eraseSequence n ++ c ++ ((rendering D entry).take 4095 ++ ['\n']) ++ ESC ++
          "[0m".toList) ∧
      st1.last_cols = (q : Int) := by
  obtain ⟨c, hcol⟩ := color_some entry.log_level (level_ne_Count _ hlevel)
  obtain ⟨h0, h1, h2, _⟩ := last_msg_lines_ceil st.last_msg_size st.last_cols hw hc
  have hn : ((last_msg_lines st.last_msg_size st.last_cols).toNat : Int) =
      last_msg_lines st.last_msg_size st.last_cols := Int.toNat_of_nonneg h0
  refine ⟨(last_msg_lines st.last_msg_size st.last_cols).toNat, c,
    { last_msg_size := toShort ((min (rendering D entry).length 4095 : Nat) : Int),
      last_cols := toShort ((q % 2 ^ 16 : Nat) : Int) }, ?_, ?_, hcol, ?_, ?_⟩
  · rw [hn]; exact h1
  · rw [hn]; exact h2
  · rw [PrintColoredMessage_eq D st (some q) entry c hcol,
      erase_repeat st entry hcount hw hc]
  · show toShort ((q % 2 ^ 16 : Nat) : Int) = (q : Int)
    have hmod : q % 2 ^ 16 = q := Nat.mod_eq_of_lt (by norm_num; omega)
    rw [hmod]
    exact toShort_small _ (by omega) (by omega)

/-- The amended C12 with 100 characters and 40 columns recorded and a query reporting 120
columns. -/
theorem PrintColoredMessage_rows_recorded_witness :
    ({ sampleEntry with count := 1 }).count ≠ 0 ∧
    (0 : Int) ≤ ({ last_msg_size := 100, last_cols := 40 } : RenderState).last_msg_size ∧
    (0 : Int) < ({ last_msg_size := 100, last_cols := 40 } : RenderState).last_cols ∧
    0 < 120 ∧ 120 ≤ 32767 ∧
    ∃ (n : Nat) (c : List Char) (st1 : RenderState),
      ({ last_msg_size := 100, last_cols := 40 } : RenderState).last_msg_size ≤
        (n : Int) * ({ last_msg_size := 100, last_cols := 40 } : RenderState).last_cols ∧
      (n : Int) * ({ last_msg_size := 100, last_cols := 40 } : RenderState).last_cols <
        ({ last_msg_size := 100, last_cols := 40 } : RenderState).last_msg_size +
          ({ last_msg_size := 100, last_cols := 40 } : RenderState).last_cols ∧
      color ({ sampleEntry with count := 1 }).log_level = some c ∧
      PrintColoredMessage sampleDecls { last_msg_size := 100, last_cols := 40 } (some 120)
          { sampleEntry with count := 1 } =
        some (st1, eraseSequence n ++ c ++
          ((rendering sampleDecls { sampleEntry with count := 1 }).take 4095 ++ ['\n']) ++
          ESC ++ "[0m".toList) ∧
      st1.last_cols = ((120 : Nat) : Int) :=
  ⟨by decide, by decide, by decide, by decide, by decide,
    PrintColoredMessage_rows_recorded sampleDecls { last_msg_size := 100, last_cols := 40 } 120
      { sampleEntry with count := 1 } (by decide) (by decide) (by decide) (by decide)
      (by decide) (by decide)⟩

/-! ## Colour before the text, reset after it -/

theorem color_eq_specColour (level : Level)
    (h : level ∈ [Level.Trace, Level.Debug, Level.Info, Level.Warning, Level.Error,
      Level.Critical]) : color level = some (specColour level) := by
  cases level
  case Count => exact absurd h (by decide)
  all_goals rfl

/-- C13: for an entry whose level is one of Trace, Debug, Info, Warning, Error, Critical, the
POSIX variant writes, after the erase prefix (empty, or `ESC [ rows A`, backspace, `ESC [J`),
exactly the colour code of the level from the table of the spec, then the text
`FormatLogMessage` leaves in the 4096-byte buffer, then a newline, then the reset `ESC[0m`. -/
theorem PrintColoredMessage_colour_text_reset (D : Decls) (st : RenderState)
    (ioctl : Option Nat) (entry : Entry)
    (hlevel : entry.log_level ∈ [Level.Trace, Level.Debug, Level.Info, Level.Warning,
      Level.Error, Level.Critical]) :
    ∃ (pre text : List Char) (st1 : RenderState),
      color entry.log_level = some (specColour entry.log_level) ∧
      FormatLogMessage D entry [] 4096 = some text ∧
      (pre = [] ∨ ∃ rows : Int,
        pre = ESC ++ "[".toList ++ to_string rows ++ "A".toList ++ [BS] ++ ESC ++ "[J".toList) ∧
      PrintColoredMessage D st ioctl entry =
        some (st1, pre ++ specColour entry.log_level ++ text ++ ['\n'] ++ Char.ofNat 27 ::
          "[0m".toList) := by
  have hcol := color_eq_specColour entry.log_level hlevel
  have hf : FormatLogMessage D entry [] 4096 = some ((rendering D entry).take 4095) := by
    rw [FormatLogMessage_eq]
    rfl
  refine ⟨erase st entry, (rendering D entry).take 4095,
    { last_msg_size := toShort ((min (rendering D entry).length 4095 : Nat) : Int),
      last_cols := match ioctl with
        | some ws_col => toShort ((ws_col % 2 ^ 16 : Nat) : Int)
        | none => st.last_cols }, hcol, hf, ?_, ?_⟩
  · unfold erase
    by_cases hcond : entry.count ≠ 0 ∧ st.last_cols ≠ 0
    · rw [if_pos hcond]
      exact Or.inr ⟨last_msg_lines st.last_msg_size st.last_cols, rfl⟩
    · rw [if_neg hcond]
      exact Or.inl rfl
  · rw [PrintColoredMessage_eq D st ioctl entry _ hcol]
    simp only [ESC, List.append_assoc, List.cons_append, List.nil_append]

/-- The statement of C13 at the sample entry, in the initial state, with a query reporting 80
columns. -/
theorem PrintColoredMessage_colour_text_reset_witness :
    sampleEntry.log_level ∈ [Level.Trace, Level.Debug, Level.Info, Level.Warning,
      Level.Error, Level.Critical] ∧
    ∃ (pre text : List Char) (st1 : RenderState),
      color sampleEntry.log_level = some (specColour sampleEntry.log_level) ∧
      FormatLogMessage sampleDecls sampleEntry [] 4096 = some text ∧
      (pre = [] ∨ ∃ rows : Int,
        pre = ESC ++ "[".toList ++ to_string rows ++ "A".toList ++ [BS] ++ ESC ++ "[J".toList) ∧
      PrintColoredMessage sampleDecls RenderState.init (some 80) sampleEntry =
        some (st1, pre ++ specColour sampleEntry.log_level ++ text ++ ['\n'] ++ Char.ofNat 27 ::
          "[0m".toList) :=
  ⟨by decide,
    PrintColoredMessage_colour_text_reset sampleDecls RenderState.init (some 80) sampleEntry
      (by decide)⟩

/-! ## The location in the line -/

theorem colorWin_some (level : Level) (h : level ≠ Level.Count) :
    ∃ c, colorWin level = some c := by
  cases level
  case Count => exact absurd rfl h
  all_goals exact ⟨_, rfl⟩

/-- C16, as stated, fails: for a line of 80 characters on a console 80 columns wide, the
Windows variant moves the cursor from row 5 to row 3, two rows up, while the POSIX variant
computes one row, the ceiling of 80 / 80. -/
theorem PrintColoredMessageWin_rows_differ :
    last_msg_lines 80 80 = 1 ∧
    PrintColoredMessageWin sampleDecls 80
        (some { dwSizeX := 80, dwCursorPositionY := 5, wAttributes := 7 })
        { sampleEntry with count := 1 } =
      Outcome.returns (72,
        [ConsoleOp.SetConsoleCursorPosition 0 3, ConsoleOp.write [BS],
          ConsoleOp.SetConsoleTextAttribute 7,
          ConsoleOp.write (rendering sampleDecls { sampleEntry with count := 1 } ++ ['\n']),
          ConsoleOp.SetConsoleTextAttribute 7]) ∧
    (5 : Int) - 3 ≠ last_msg_lines 80 80 := by
  refine ⟨by decide, by decide, by decide⟩

/-- C16, amended: for a recorded width `0 ≤ w ≤ 32767`, a console `c > 0` columns wide and a
cursor row `0 ≤ Y ≤ 32767`, the Windows variant moves the cursor of a repeat entry up by
`w / c + 1` rows (the quotient rounded down, plus one). This is the ceiling of `w / c`, the
row count of the POSIX variant, when `c` does not divide `w`, and one row more when `c`
divides `w`. -/
theorem PrintColoredMessageWin_rows (D : Decls) (w : Int) (info : ConsoleInfo)
    (entry : Entry) (hcount : entry.count ≠ 0) (hw0 : 0 ≤ w) (hw1 : w ≤ 32767)
    (hc : 0 < info.dwSizeX) (hy0 : 0 ≤ info.dwCursorPositionY)
    (hy1 : info.dwCursorPositionY ≤ 32767)
    (hlevel : entry.log_level ∈ [Level.Trace, Level.Debug, Level.Info, Level.Warning,
      Level.Error, Level.Critical]) :
    ∃ (Y : Int) (attributes : Nat) (size : Int),
      PrintColoredMessageWin D w (some info) entry =
        Outcome.returns (size,
          [ConsoleOp.SetConsoleCursorPosition 0 Y, ConsoleOp.write [BS],
            ConsoleOp.SetConsoleTextAttribute attributes,
            ConsoleOp.write ((rendering D entry).take 4095 ++ ['\n']),
            ConsoleOp.SetConsoleTextAttribute info.wAttributes]) ∧
      info.dwCursorPositionY - Y = w / info.dwSizeX + 1 ∧
      info.dwCursorPositionY - Y =
        last_msg_lines w info.dwSizeX + (if w % info.dwSizeX = 0 then 1 else 0) := by
  obtain ⟨c, hcol⟩ := colorWin_some entry.log_level (level_ne_Count _ hlevel)
  have hdiv : Int.tdiv w info.dwSizeX = w / info.dwSizeX :=
    Int.tdiv_eq_ediv hw0 (le_of_lt hc)
  have hmod : Int.tmod w info.dwSizeX = w % info.dwSizeX :=
    Int.tmod_eq_emod hw0 (le_of_lt hc)
  have hq0 : 0 ≤ w / info.dwSizeX := Int.ediv_nonneg hw0 (le_of_lt hc)
  have hq1 : w / info.dwSizeX ≤ w := Int.ediv_le_self _ hw0
  have hY : toShort (info.dwCursorPositionY - w / info.dwSizeX - 1) =
      info.dwCursorPositionY - w / info.dwSizeX - 1 := by
    unfold toShort
    norm_num
    omega
  refine ⟨info.dwCursorPositionY - w / info.dwSizeX - 1, c,
    toShort ((min (rendering D entry).length 4095 : Nat) : Int), ?_, by omega, ?_⟩
  · have hx : ¬ info.dwSizeX = 0 := ne_of_gt hc
    simp only [PrintColoredMessageWin, PrintColoredMessageWin.finish, hcount, ne_eq,
      not_false_eq_true, if_true, hx, if_false, hcol, PrintMessage_rendering, hdiv, hY]
    rfl
  · unfold last_msg_lines
    rw [hdiv, hmod]
    by_cases hr : w % info.dwSizeX = 0
    · simp only [hr, ne_eq, not_true_eq_false, if_false, if_true]
      omega
    · simp only [hr, ne_eq, not_false_eq_true, if_true, if_false]
      omega

/-- The amended C16 for 100 characters on a console 40 columns wide, with the cursor in row
9. -/
theorem PrintColoredMessageWin_rows_witness :
    ({ sampleEntry with count := 1 }).count ≠ 0 ∧ (0 : Int) ≤ 100 ∧ (100 : Int) ≤ 32767 ∧
    ∃ (Y : Int) (attributes : Nat) (size : Int),
      PrintColoredMessageWin sampleDecls 100
          (some { dwSizeX := 40, dwCursorPositionY := 9, wAttributes := 7 })
          { sampleEntry with count := 1 } =
        Outcome.returns (size,
          [ConsoleOp.SetConsoleCursorPosition 0 Y, ConsoleOp.write [BS],
            ConsoleOp.SetConsoleTextAttribute attributes,
            ConsoleOp.write
              ((rendering sampleDecls { sampleEntry with count := 1 }).take 4095 ++ ['\n']),
            ConsoleOp.SetConsoleTextAttribute
              ({ dwSizeX := 40, dwCursorPositionY := 9, wAttributes := 7 } :
                ConsoleInfo).wAttributes]) ∧
      ({ dwSizeX := 40, dwCursorPositionY := 9, wAttributes := 7 } :
          ConsoleInfo).dwCursorPositionY - Y =
        100 / ({ dwSizeX := 40, dwCursorPositionY := 9, wAttributes := 7 } :
          ConsoleInfo).dwSizeX + 1 ∧
      ({ dwSizeX := 40, dwCursorPositionY := 9, wAttributes := 7 } :
          ConsoleInfo).dwCursorPositionY - Y =
        last_msg_lines 100 ({ dwSizeX := 40, dwCursorPositionY := 9, wAttributes := 7 } :
          ConsoleInfo).dwSizeX +
          (if 100 % ({ dwSizeX := 40, dwCursorPositionY := 9, wAttributes := 7 } :
            ConsoleInfo).dwSizeX = 0 then 1 else 0) :=
  ⟨by decide, by decide, by decide,
    PrintColoredMessageWin_rows sampleDecls 100
      { dwSizeX := 40, dwCursorPositionY := 9, wAttributes := 7 }
      { sampleEntry with count := 1 } (by decide) (by decide) (by decide) (by decide)
      (by decide) (by decide) (by decide)⟩

/-- C17: the code at the failing input. With the screen-buffer query failing, or reporting a
width of 0, the Windows variant rendering a repeat entry divides `last_msg_size` by the zero
`dwSize.X`; an entry that is no repeat is rendered. -/
theorem PrintColoredMessageWin_division_by_zero :
    PrintColoredMessageWin sampleDecls 56 none { sampleEntry with count := 1 } =
      Outcome.divisionByZero ∧
    PrintColoredMessageWin sampleDecls 56
        (some { dwSizeX := 0, dwCursorPositionY := 5, wAttributes := 7 })
        { sampleEntry with count := 1 } = Outcome.divisionByZero ∧
    PrintColoredMessageWin sampleDecls 56 none sampleEntry =
      Outcome.returns (56,
        [ConsoleOp.SetConsoleTextAttribute 7,
          ConsoleOp.write (rendering sampleDecls sampleEntry ++ ['\n']),
          ConsoleOp.SetConsoleTextAttribute 0]) := by
  refine ⟨by decide, by decide, by decide⟩

/-! ## The zero-length root -/

theorem components_ne_nil (p : List Char) : components p ≠ [] := by
  rw [components_unfold]
  exact List.cons_ne_nil _ _

/-- The components followed by a separator, along the scan of the loop. -/
theorem closedComponents_unfold (p : List Char) :
    closedComponents p =
      (match p.dropWhile notSlash with
        | [] => []
        | _ :: r => p.takeWhile notSlash :: closedComponents r) := by
  unfold closedComponents
  rw [components_unfold]
  cases p.dropWhile notSlash with
  | nil => rfl
  | cons x r => exact List.dropLast_cons_of_ne_nil (components_ne_nil r)

/-- With the empty root, a path without an empty component before a separator is left as it
is. -/
theorem run_empty_no_match :
    ∀ (n : Nat) (p path : List Char), p.length ≤ n → [] ∉ closedComponents p →
      run [] p path = some path := by
  intro n
  induction n with
  | zero =>
    intro p path hn _
    have : p = [] := List.length_eq_zero.mp (Nat.le_zero.mp hn)
    subst this
    rfl
  | succ n ih =>
    intro p path hn hno
    cases p with
    | nil => rfl
    | cons c cs =>
      rw [run_cons]
      rw [closedComponents_unfold] at hno
      have hlt := stepOver_dropWhile_length c cs
      have hsplit : (c :: cs).takeWhile notSlash ++ (c :: cs).dropWhile notSlash = c :: cs :=
        List.takeWhile_append_dropWhile _ _
      cases hd : (c :: cs).dropWhile notSlash with
      | nil =>
        rw [hd, List.append_nil] at hsplit
        have hcmp : ComparePartialString ((c :: cs).takeWhile notSlash) [] = false := by
          rw [hsplit]
          rfl
        rw [hcmp]
        rfl
      | cons x r =>
        rw [hd] at hno hlt
        simp only [List.mem_cons, not_or] at hno
        have hcmp : ComparePartialString ((c :: cs).takeWhile notSlash) [] = false := by
          simp only [ComparePartialString, beq_eq_false_iff_ne, ne_eq]
          exact fun h => hno.1 h.symm
        rw [hcmp]
        simp only [stepOver, List.length_cons, Bool.false_eq_true, if_false] at hlt hn ⊢
        exact ih r path (by omega) hno.2

/-- With the empty root, the result starts just after the last separator that closes an empty
component. -/
theorem run_empty_last_match :
    ∀ (n : Nat) (p path : List Char), p.length ≤ n → [] ∈ closedComponents p →
      ∃ (pre : List Char) (s : Char) (rest : List Char), p = pre ++ s :: rest ∧
        endsWithSlash pre ∧ notSlash s = false ∧ [] ∉ closedComponents rest ∧
        run [] p path = some rest := by
  intro n
  induction n with
  | zero =>
    intro p path hn hin
    have : p = [] := List.length_eq_zero.mp (Nat.le_zero.mp hn)
    subst this
    exact absurd hin (by decide)
  | succ n ih =>
    intro p path hn hin
    cases p with
    | nil => exact absurd hin (by decide)
    | cons c cs =>
      have hsplit : (c :: cs).takeWhile notSlash ++ (c :: cs).dropWhile notSlash = c :: cs :=
        List.takeWhile_append_dropWhile _ _
      have hlt := stepOver_dropWhile_length c cs
      rw [closedComponents_unfold] at hin
      rw [run_cons]
      cases hd : (c :: cs).dropWhile notSlash with
      | nil =>
        rw [hd] at hin
        exact absurd hin (List.not_mem_nil _)
      | cons x r =>
        rw [hd] at hin hsplit hlt
        have hx := dropWhile_head_notSlash _ _ _ hd
        simp only [stepOver, List.length_cons] at hlt hn ⊢
        by_cases hr : [] ∈ closedComponents r
        · obtain ⟨pre, s, rest, hp, hpre, hs, hlast, hrun⟩ :=
            ih r (if ComparePartialString ((c :: cs).takeWhile notSlash) [] then r else path)
              (by omega) hr
          refine ⟨(c :: cs).takeWhile notSlash ++ x :: pre, s, rest, ?_, ?_, hs, hlast, hrun⟩
          · exact hsplit.symm.trans (by rw [hp]; simp)
          · rcases hpre with hnil | ⟨init, t, hinit, ht⟩
            · exact Or.inr ⟨(c :: cs).takeWhile notSlash, x, by rw [hnil], hx⟩
            · exact Or.inr ⟨(c :: cs).takeWhile notSlash ++ x :: init, t, by rw [hinit]; simp, ht⟩
        · simp only [List.mem_cons] at hin
          have hin1 : [] = (c :: cs).takeWhile notSlash := hin.resolve_right hr
          refine ⟨[], x, r, ?_, Or.inl rfl, hx, hr, ?_⟩
          · exact hsplit.symm.trans (by rw [← hin1])
          · have hcmp : ComparePartialString ((c :: cs).takeWhile notSlash) [] = true := by
              rw [← hin1]
              rfl
            rw [hcmp]
            simp only [if_true]
            exact run_empty_no_match r.length r r (Nat.le_refl _) hr

theorem adjacentSlashes_cons (a : Char) (l : List Char) :
    adjacentSlashes (a :: l) = ((!notSlash a && leadingSlash l) || adjacentSlashes l) := by
  cases l with
  | nil => simp [adjacentSlashes, leadingSlash]
  | cons b t => simp [adjacentSlashes, leadingSlash]

theorem takeWhile_slash_free (p : List Char) :
    leadingSlash (p.takeWhile notSlash) = false ∧
      ∀ (x : Char) (r : List Char), notSlash x = false →
        adjacentSlashes (p.takeWhile notSlash ++ x :: r) = (leadingSlash r || adjacentSlashes r) ∧
        leadingSlash (p.takeWhile notSlash ++ x :: r) =
          decide (p.takeWhile notSlash = []) := by
  induction p with
  | nil =>
    refine ⟨rfl, ?_⟩
    intro x r hx
    simp [adjacentSlashes_cons, leadingSlash, hx]
  | cons c cs ih =>
    by_cases hc : notSlash c = true
    · simp only [List.takeWhile_cons, hc, if_true]
      refine ⟨by simp [leadingSlash, hc], ?_⟩
      intro x r hx
      obtain ⟨_, h2⟩ := ih
      obtain ⟨ha, hl⟩ := h2 x r hx
      simp only [List.cons_append, adjacentSlashes_cons, hc, ha, leadingSlash]
      simp
    · simp only [List.takeWhile_cons, hc]
      refine ⟨rfl, ?_⟩
      intro x r hx
      simp [adjacentSlashes_cons, leadingSlash, hx]

/-- An empty component is followed by a separator exactly when the path starts with a
separator or holds two adjacent separators. -/
theorem empty_closed_iff :
    ∀ (n : Nat) (p : List Char), p.length ≤ n →
      ([] ∈ closedComponents p ↔ leadingSlash p = true ∨ adjacentSlashes p = true) := by
  intro n
  induction n with
  | zero =>
    intro p hn
    have : p = [] := List.length_eq_zero.mp (Nat.le_zero.mp hn)
    subst this
    decide
  | succ n ih =>
    intro p hn
    cases p with
    | nil => decide
    | cons c cs =>
      have hsplit : (c :: cs).takeWhile notSlash ++ (c :: cs).dropWhile notSlash = c :: cs :=
        List.takeWhile_append_dropWhile _ _
      have hlt := stepOver_dropWhile_length c cs
      obtain ⟨hfree, hfree2⟩ := takeWhile_slash_free (c :: cs)
      rw [closedComponents_unfold]
      cases hd : (c :: cs).dropWhile notSlash with
      | nil =>
        rw [hd, List.append_nil] at hsplit
        have hall : ∀ a ∈ c :: cs, notSlash a = true := by
          intro a ha
          rw [← hsplit] at ha
          exact List.mem_takeWhile_imp ha
        have hc : notSlash c = true := hall c (List.mem_cons_self _ _)
        have hadj : ∀ l : List Char, (∀ a ∈ l, notSlash a = true) →
            adjacentSlashes l = false := by
          intro l
          induction l with
          | nil => intro _; rfl
          | cons a t iht =>
            intro hl
            rw [adjacentSlashes_cons, iht (fun b hb => hl b (List.mem_cons_of_mem _ hb)),
              hl a (List.mem_cons_self _ _)]
            rfl
        simp [leadingSlash, hc, hadj (c :: cs) hall]
      | cons x r =>
        rw [hd] at hsplit hlt
        have hx := dropWhile_head_notSlash _ _ _ hd
        obtain ⟨hadj, hlead⟩ := hfree2 x r hx
        rw [hsplit] at hadj hlead
        simp only [stepOver, List.length_cons] at hlt hn
        have ihr := ih r (by omega)
        simp only [List.mem_cons, ihr, hadj, hlead, Bool.or_eq_true, decide_eq_true_eq]
        constructor
        · rintro (h | h | h)
          · exact Or.inl h.symm
          · exact Or.inr (Or.inl h)
          · exact Or.inr (Or.inr h)
        · rintro (h | h | h)
          · exact Or.inl h.symm
          · exact Or.inr (Or.inl h)
          · exact Or.inr (Or.inr h)

/-- C18: for the zero-length root and every path, `TrimSourcePath` returns; it returns the
path unchanged when no empty component of the path is followed by a separator, that is when
the path has no leading separator and no two adjacent separators; otherwise the path splits
as `pre ++ s :: rest` with `pre` empty or ending with a separator, `s` a
separator, no empty component followed by a separator in `rest` (so `s` is the last separator
that closes an empty component), and the result is `rest`. So `/build/x` gives `build/x`,
`a//b` gives `b`, and `a/` is unchanged, its trailing empty component not being examined. -/
theorem TrimSourcePath_empty_root (path : List Char) :
    (∃ r, TrimSourcePath path [] = some r) ∧
    ([] ∈ closedComponents path ↔ leadingSlash path = true ∨ adjacentSlashes path = true) ∧
    ([] ∉ closedComponents path → TrimSourcePath path [] = some path) ∧
    ([] ∈ closedComponents path →
      ∃ (pre : List Char) (s : Char) (rest : List Char), path = pre ++ s :: rest ∧
        endsWithSlash pre ∧ notSlash s = false ∧ [] ∉ closedComponents rest ∧
        TrimSourcePath path [] = some rest) ∧
    TrimSourcePath "/build/x".toList [] = some "build/x".toList ∧
    TrimSourcePath "a//b".toList [] = some "b".toList ∧
    TrimSourcePath "a/".toList [] = some "a/".toList := by
  refine ⟨⟨_, TrimSourcePath_some path []⟩, empty_closed_iff path.length path (Nat.le_refl _),
    ?_, ?_, by decide, by decide, by decide⟩
  · exact run_empty_no_match path.length path path (Nat.le_refl _)
  · exact run_empty_last_match path.length path path (Nat.le_refl _)

/-! ## Idempotence -/

theorem stepOver_suffix (l : List Char) : stepOver l <:+ l := by
  cases l with
  | nil => exact List.nil_suffix
  | cons a t => exact List.suffix_cons a t

/-- C19: for every path and root, `TrimSourcePath` returns a suffix of the path, and applied
to its own result it returns that result again. -/
theorem TrimSourcePath_idempotent (path root : List Char) :
    ∃ r, TrimSourcePath path root = some r ∧ r <:+ path ∧ TrimSourcePath r root = some r := by
  by_cases hroot : root = []
  · subst hroot
    by_cases hin : [] ∈ closedComponents path
    · obtain ⟨pre, s, rest, hp, _, _, hlast, hrun⟩ :=
        run_empty_last_match path.length path path (Nat.le_refl _) hin
      refine ⟨rest, hrun, ?_, run_empty_no_match rest.length rest rest (Nat.le_refl _) hlast⟩
      rw [hp]
      exact ⟨pre ++ [s], by simp⟩
    · have h := run_empty_no_match path.length path path (Nat.le_refl _) hin
      exact ⟨path, h, List.suffix_refl _, h⟩
  · by_cases hin : root ∈ components path
    · obtain ⟨pre, tail, hp, _, _, hlast, hrun⟩ :=
        run_last_match root hroot path.length path path (Nat.le_refl _) hin
      refine ⟨stepOver tail, hrun, ?_,
        run_no_match root (stepOver tail).length (stepOver tail) (stepOver tail)
          (Nat.le_refl _) hlast⟩
      rw [hp]
      exact (stepOver_suffix tail).trans (List.suffix_append _ _)
    · have h := run_no_match root path.length path path (Nat.le_refl _) hin
      exact ⟨path, h, List.suffix_refl _, h⟩

/-! ## The reachable states of the POSIX renderer -/

theorem rendering_length_pos (D : Decls) (entry : Entry) : 1 ≤ (rendering D entry).length := by
  unfold rendering
  by_cases hc : entry.count = 0
  · rw [formatted_zero D entry _ hc]
    simp
  · rw [formatted_repeat D entry _ hc]
    simp

/-- A call that returns was made for a level that has a colour. -/
theorem PrintColoredMessage_some_color (D : Decls) (st st1 : RenderState) (ioctl : Option Nat)
    (entry : Entry) (out : List Char)
    (h : PrintColoredMessage D st ioctl entry = some (st1, out)) :
    ∃ c, color entry.log_level = some c := by
  cases hcol : color entry.log_level with
  | none => simp [PrintColoredMessage, hcol] at h
  | some c => exact ⟨c, rfl⟩

/-- The width stored by a call is the value `PrintMessage` returned, unchanged by the
conversion to `short`. -/
theorem PrintColoredMessage_size (D : Decls) (st st1 : RenderState) (ioctl : Option Nat)
    (entry : Entry) (out : List Char)
    (h : PrintColoredMessage D st ioctl entry = some (st1, out)) :
    st1.last_msg_size = ((min (rendering D entry).length 4095 : Nat) : Int) ∧
    (ioctl = none → st1.last_cols = st.last_cols) ∧
    (∀ ws_col : Nat, ioctl = some ws_col →
      st1.last_cols = toShort ((ws_col % 2 ^ 16 : Nat) : Int)) := by
  obtain ⟨c, hcol⟩ := PrintColoredMessage_some_color D st st1 ioctl entry out h
  rw [PrintColoredMessage_eq D st ioctl entry c hcol] at h
  simp only [Option.some.injEq, Prod.mk.injEq] at h
  rw [← h.1]
  refine ⟨?_, ?_, ?_⟩
  · show toShort _ = _
    apply toShort_small
    · omega
    · have := Nat.min_le_right (rendering D entry).length 4095
      omega
  · intro hq
    rw [hq]
  · intro q hq
    rw [hq]

/-- One call keeps the invariant. -/
theorem renderInvariant_step (D : Decls) (st st1 : RenderState) (ioctl : Option Nat)
    (entry : Entry) (out : List Char) (hinv : renderInvariant st)
    (hq : validQuery ioctl = true)
    (h : PrintColoredMessage D st ioctl entry = some (st1, out)) : renderInvariant st1 := by
  obtain ⟨hsize, hnone, hsome⟩ := PrintColoredMessage_size D st st1 ioctl entry out h
  have hpos := rendering_length_pos D entry
  have hle := Nat.min_le_right (rendering D entry).length 4095
  have hmin : 1 ≤ min (rendering D entry).length 4095 := by
    rw [Nat.le_min]
    exact ⟨hpos, by norm_num⟩
  obtain ⟨_, _, hc0, hc1, _⟩ := hinv
  unfold renderInvariant
  rw [hsize]
  refine ⟨by omega, by omega, ?_, ?_, fun _ => by omega⟩
  · cases ioctl with
    | none => rw [hnone rfl]; exact hc0
    | some q =>
      simp only [validQuery, Bool.and_eq_true, decide_eq_true_eq] at hq
      have hmod : q % 2 ^ 16 = q := Nat.mod_eq_of_lt (by norm_num; omega)
      rw [hsome q rfl, hmod, toShort_small _ (by omega) (by omega)]
      omega
  · cases ioctl with
    | none => rw [hnone rfl]; exact hc1
    | some q =>
      simp only [validQuery, Bool.and_eq_true, decide_eq_true_eq] at hq
      have hmod : q % 2 ^ 16 = q := Nat.mod_eq_of_lt (by norm_num; omega)
      rw [hsome q rfl, hmod, toShort_small _ (by omega) (by omega)]
      omega

/-- A sequence of calls keeps the invariant. -/
theorem renderInvariant_calls (D : Decls) :
    ∀ (calls : List (Option Nat × Entry)) (st0 st : RenderState) (outs : List (List Char)),
      renderInvariant st0 → (∀ call ∈ calls, validQuery call.1 = true) →
      PrintColoredMessages D st0 calls = some (st, outs) → renderInvariant st := by
  intro calls
  induction calls with
  | nil =>
    intro st0 st outs hinv _ h
    simp only [PrintColoredMessages, Option.some.injEq, Prod.mk.injEq] at h
    rw [← h.1]
    exact hinv
  | cons call calls ih =>
    intro st0 st outs hinv hq h
    obtain ⟨ioctl, entry⟩ := call
    simp only [PrintColoredMessages] at h
    cases h1 : PrintColoredMessage D st0 ioctl entry with
    | none => simp [h1] at h
    | some res =>
      obtain ⟨st1, out1⟩ := res
      rw [h1] at h
      simp only at h
      cases h2 : PrintColoredMessages D st1 calls with
      | none => simp [h2] at h
      | some res2 =>
        obtain ⟨st2, outs2⟩ := res2
        rw [h2] at h
        simp only [Option.some.injEq, Prod.mk.injEq] at h
        rw [← h.1]
        have hq1 : validQuery ioctl = true := hq (ioctl, entry) (List.mem_cons_self _ _)
        exact ih st1 st2 outs2 (renderInvariant_step D st0 st1 ioctl entry out1 hinv hq1 h1)
          (fun call hc => hq call (List.mem_cons_of_mem _ hc)) h2

/-- C20: in every state reached from the zero-initialised statics by calls of the POSIX
variant, on any entries and with width queries that fail or report `1 .. 32767` columns, a
recorded column count other than 0 comes with `1 ≤ last_msg_size ≤ 4095`. Both statics stay
within the range of `short`, and the width a further call stores is the value `PrintMessage`
returned, unchanged by the conversion to `short`. The rows are computed only under the test
`last_cols != 0`, so nothing is divided by zero, and every cursor-up sequence a further call
writes carries a row count of at least 1. -/
theorem renderInvariant_reachable (D : Decls) (calls : List (Option Nat × Entry))
    (st : RenderState) (outs : List (List Char))
    (hq : ∀ call ∈ calls, validQuery call.1 = true)
    (h : PrintColoredMessages D RenderState.init calls = some (st, outs)) :
    (st.last_cols ≠ 0 → 1 ≤ st.last_msg_size ∧ st.last_msg_size ≤ 4095) ∧
    (0 ≤ st.last_msg_size ∧ st.last_msg_size ≤ 4095 ∧ 0 ≤ st.last_cols ∧
      st.last_cols ≤ 32767) ∧
    (∀ (ioctl : Option Nat) (entry : Entry) (st1 : RenderState) (out : List Char),
      PrintColoredMessage D st ioctl entry = some (st1, out) →
        st1.last_msg_size = ((min (rendering D entry).length 4095 : Nat) : Int)) ∧
    (∀ entry : Entry, entry.count = 0 ∨ st.last_cols = 0 → erase st entry = []) ∧
    (∀ entry : Entry, entry.count ≠ 0 → st.last_cols ≠ 0 →
      ∃ n : Nat, 1 ≤ n ∧ erase st entry = eraseSequence n) := by
  have hinit : renderInvariant RenderState.init := by
    unfold renderInvariant RenderState.init
    simp
  obtain ⟨h0, h1, h2, h3, h4⟩ := renderInvariant_calls D calls RenderState.init st outs hinit hq h
  refine ⟨fun hne => ⟨h4 hne, h1⟩, ⟨h0, h1, h2, h3⟩, ?_, erase_nil st, ?_⟩
  · intro ioctl entry st1 out hcall
    exact (PrintColoredMessage_size D st st1 ioctl entry out hcall).1
  · intro entry hcount hne
    have hc : 0 < st.last_cols := by omega
    have hw : 0 < st.last_msg_size := by
      have := h4 hne
      omega
    obtain ⟨hl0, _, _, hl3⟩ := last_msg_lines_ceil st.last_msg_size st.last_cols h0 hc
    refine ⟨(last_msg_lines st.last_msg_size st.last_cols).toNat, ?_,
      erase_repeat st entry hcount h0 hc⟩
    have := hl3 hw
    omega

/-- The statement of C20 for the state reached by two calls on the sample entry, the first
with a query reporting 80 columns and the second with a failing query. -/
theorem renderInvariant_reachable_witness :
    (∀ call ∈ [(some 80, sampleEntry), (none, sampleEntry)], validQuery call.1 = true) ∧
    PrintColoredMessages sampleDecls RenderState.init
        [(some 80, sampleEntry), (none, sampleEntry)] =
      some ({ last_msg_size := 56, last_cols := 80 },
        [specColour Level.Info ++ (rendering sampleDecls sampleEntry ++ ['\n']) ++ ESC ++
            "[0m".toList,
          specColour Level.Info ++ (rendering sampleDecls sampleEntry ++ ['\n']) ++ ESC ++
            "[0m".toList]) ∧
    (({ last_msg_size := 56, last_cols := 80 } : RenderState).last_cols ≠ 0 →
      1 ≤ ({ last_msg_size := 56, last_cols := 80 } : RenderState).last_msg_size ∧
      ({ last_msg_size := 56, last_cols := 80 } : RenderState).last_msg_size ≤ 4095) :=
  ⟨by decide, by decide,
    (renderInvariant_reachable sampleDecls [(some 80, sampleEntry), (none, sampleEntry)]
      { last_msg_size := 56, last_cols := 80 }
      [specColour Level.Info ++ (rendering sampleDecls sampleEntry ++ ['\n']) ++ ESC ++
          "[0m".toList,
        specColour Level.Info ++ (rendering sampleDecls sampleEntry ++ ['\n']) ++ ESC ++
          "[0m".toList]
      (by decide) (by decide)).1⟩

end Log
